import Mathlib

/-!
# dotbox: a shallow embedding of `dotbox.c`

The program builds a scaffold directory under `$HOME/.cache/dotbox/$PID`,
bind-mounts a fixed table of host directories read-only below it, forks a
child that chroots, drops privileges and execs the login shell, waits for the
child, ejects the mounts in reverse order and removes the scaffold.

System calls are modelled as functions on an explicit `World` that records
every call in a trace.  Paths are the C strings the program passes around.
-/

namespace Dotbox

/-! ## Constants of the C library and the kernel interface -/

def EXIT_FAILURE : Nat := 1

def ENOENT : Nat := 2
def EINTR : Nat := 4
def ECHILD : Nat := 10
def EEXIST : Nat := 17
def ENOTDIR : Nat := 20

def MS_RDONLY : Nat := 1
def MS_BIND : Nat := 4096
def MS_REC : Nat := 16384
def MS_PRIVATE : Nat := 262144

def CLONE_NEWNS : Nat := 131072

/-- Number of values of an `unsigned long` (64 bit). -/
def ULONG_SIZE : Nat := 2 ^ 64

/-- Bitwise complement `~x` of an `unsigned long`. -/
def ulongNot (x : Nat) : Nat := (ULONG_SIZE - 1) ^^^ (x % ULONG_SIZE)

def FTW_F : Nat := 0
def FTW_D : Nat := 1
def FTW_DNR : Nat := 2
def FTW_NS : Nat := 3
def FTW_DP : Nat := 5
def FTW_SLN : Nat := 6

/-- The `nftw` flag asking for a post-order walk. -/
def FTW_DEPTH : Nat := 8

def NUL : Char := Char.ofNat 0

/-- The C string stored in a character buffer: everything before the first NUL. -/
def cstr (buf : List Char) : List Char := buf.takeWhile (fun c => c != NUL)

/-! ## The world: a filesystem of path names, failure oracles and a trace -/

/-- System calls and diagnostics the program issues, in program order. -/
inductive Event where
  | unshare (flags : Nat)
  | mkdir (path : String) (mode : Nat)
  | mount (source : Option String) (target : Option String) (type : Option String) (flags : Nat)
  | umount (target : Option String)
  | rmdir (path : String)
  | fork
  | chroot (path : String)
  | chdir (path : String)
  | setgid (gid : Nat)
  | setuid (uid : Nat)
  | execl (path : String)
  | wait
  | warn (what : String)
  deriving DecidableEq, Repr

/-- State of the host as far as the program can observe it.  `dirs` and
`files` are the path names for which `stat` succeeds (directories and other
entries); `mountFails` and `umountFails` list the targets, and `rmdirFails`
the paths, on which the respective system call fails whatever the state of
the filesystem (for instance `rmdir` with `EBUSY` on a directory that is
still a mount point). -/
structure World where
  dirs : List String
  files : List String
  mountFails : List String
  umountFails : List String
  rmdirFails : List String
  errno : Nat
  trace : List Event
  deriving DecidableEq, Repr

/-- Outcome of code that may leave through `err`/`errx`. -/
inductive Result (α : Type) where
  | ok (a : α) (w : World)
  | exit (code : Nat) (w : World)
  deriving Repr

def emit (w : World) (e : Event) : World := { w with trace := w.trace ++ [e] }

/-- Model of `warn(3)`: a diagnostic on stderr, the process continues. -/
def warn (w : World) (what : String) : World := emit w (Event.warn what)

/-- Path name of the directory holding `p`: `p` without its last component.
The result is `/` for an entry of the root directory and the empty string
(the working directory) for a name without a slash. -/
def parentOf (p : String) : String :=
  match (p.data.reverse.dropWhile (fun c => c != '/')) with
  | [] => ""
  | [_] => "/"
  | _ :: t => String.mk t.reverse

def isDirectory (w : World) (p : String) : Bool :=
  p == "" || p == "/" || w.dirs.contains p

/-- Model of `stat(path) == 0`.  A path is looked up as the string it is:
two spellings of one entry (`/f` and `//f`) are different names here. -/
def statOk (w : World) (p : String) : Bool :=
  p == "/" || w.dirs.contains p || w.files.contains p

/-- Model of `mkdir(2)`: fails with `EEXIST` when the name is taken, with
`ENOTDIR`/`ENOENT` when the parent is not a directory, and otherwise creates
the directory.  Returns the C return value.  Mounts are not part of the
model: a path below a mounted target is looked up like any other path, where
a host resolves it inside the mounted directory. -/
def sysMkdir (w : World) (path : String) (mode : Nat) : World × Int :=
  let w1 := emit w (Event.mkdir path mode)
  if statOk w1 path then ({ w1 with errno := EEXIST }, -1)
  else if isDirectory w1 (parentOf path) then ({ w1 with dirs := w1.dirs ++ [path] }, 0)
  else if w1.files.contains (parentOf path) then ({ w1 with errno := ENOTDIR }, -1)
  else ({ w1 with errno := ENOENT }, -1)

/-- Model of `mount(2)`; the outcome is taken from the oracle `mountFails`. -/
def sysMount (w : World) (source target type : Option String) (flags : Nat) : World × Int :=
  let w1 := emit w (Event.mount source target type flags)
  match target with
  | some t => if w1.mountFails.contains t then (w1, -1) else (w1, 0)
  | none => (w1, -1)

/-- Model of `umount(2)`; the outcome is taken from the oracle `umountFails`. -/
def sysUmount (w : World) (target : Option String) : World × Int :=
  let w1 := emit w (Event.umount target)
  match target with
  | some t => if w1.umountFails.contains t then (w1, -1) else (w1, 0)
  | none => (w1, -1)

/-! ## `struct mount`, the mount table and the path globals -/

/-- The C `struct mount`; a `char *` that may be `NULL` is an `Option`. -/
structure Mount where
  source : Option String
  type : Option String
  target : Option String
  flags : Nat
  mounted : Bool
  deriving DecidableEq, Repr

/-- A table entry `{"/src"}`: the remaining members are zero-initialised. -/
def entry (source : String) : Mount :=
  { source := some source, type := none, target := none, flags := 0, mounted := false }

/-- A table entry `{"/src", "type"}`. -/
def entryTyped (source type : String) : Mount :=
  { source := some source, type := some type, target := none, flags := 0, mounted := false }

/-- The static table `mounts[]`. -/
def mounts : List Mount :=
  [ entry "/bin", entry "/dev", entryTyped "/dev/pts" "pts", entry "/etc", entry "/lib",
    entry "/lib64", entryTyped "/proc" "proc", entryTyped "/sys" "sysfs", entry "/tmp",
    entry "/usr", entry "/var" ]

/-- The static `home`, zero-initialised. -/
def home : Mount :=
  { source := none, type := none, target := none, flags := 0, mounted := false }

/-- The global `path`. -/
structure Paths where
  root : String
  home : String
  deriving DecidableEq, Repr

/-! ## `mkdirv` and `mkdirp` -/

/-- `mkdirv`: `mkdir` with a warning for every error except `EEXIST`. -/
def mkdirv (w : World) (path : String) (mode : Nat) : World :=
  let r := sysMkdir { w with errno := 0 } path mode
  if r.2 != 0 then
    if r.1.errno != EEXIST then warn r.1 "mkdir" else r.1
  else r.1

/-- The second loop of `mkdirp`: `rest` is what is left of `path`, `i` the
offset of `c` in `copy`.  At every slash of `path` the slash is restored in
`copy` and the string `copy` then holds is created. -/
def mkdirpLoop : List Char → Nat → List Char → World → World
  | [], _, _, w => w
  | ch :: rest, i, copy, w =>
    if ch != '/' then mkdirpLoop rest (i + 1) copy w
    else mkdirpLoop rest (i + 1) (copy.set i '/') (mkdirv w (String.mk (cstr (copy.set i '/'))) 511)

/-- What the first loop of `mkdirp` does to one character of `copy`. -/
def zap (c : Char) : Char := if c == '/' then NUL else c

/-- `mkdirp`: `copy` is `path` with every slash overwritten by NUL; the
first component is created when `path` does not start with a slash, then the
loop creates one prefix per slash.  (`strdup` is taken to succeed.) -/
def mkdirp (w : World) (path : String) : World :=
  let p := cstr path.data
  let copy := p.map zap
  let w1 := if copy.head? != none && copy.head? != some NUL then mkdirv w (String.mk (cstr copy)) 511 else w
  mkdirpLoop p 0 copy w1

/-! ## `mount_bind` and `mount_eject` -/

/-- `mount_bind`: skip a source that does not exist; otherwise derive the
target, create it, and mount with `default_flags & ~mnt->flags`.  A failing
`mount` ends the process.  (`asprintf` is taken to succeed.) -/
def mount_bind (path : Paths) (w : World) (mnt : Mount) : Result Mount :=
  let default_flags := MS_BIND ||| MS_RDONLY
  if mnt.source == none || !(statOk w (mnt.source.getD "")) then Result.ok mnt w
  else
    let mnt1 := if mnt.target == none
      then { mnt with target := some (path.root ++ mnt.source.getD "") } else mnt
    let mnt2 := if mnt1.type == none then { mnt1 with type := some "" } else mnt1
    let w1 := mkdirp w (mnt2.target.getD "")
    let r := sysMount w1 mnt2.source mnt2.target mnt2.type (default_flags &&& ulongNot mnt2.flags)
    if r.2 != 0 then Result.exit EXIT_FAILURE r.1
    else Result.ok { mnt2 with mounted := true } r.1

/-- `mount_eject`: unmount a mounted entry, warn when that fails, and clear
`mounted` either way. -/
def mount_eject (w : World) (mnt : Mount) : World × Mount :=
  if mnt.mounted then
    let r := sysUmount w mnt.target
    let w1 := if r.2 != 0 then warn r.1 "umount" else r.1
    (w1, { mnt with mounted := false })
  else (w, mnt)

/-! ## The directory tree `nftw` walks -/

/-- What `nftw` reports for an entry that is not a readable directory. -/
inductive Kind where
  | file
  | unreadable
  | nostat
  | dangling
  deriving DecidableEq, Repr

def Kind.flag : Kind → Nat
  | Kind.file => FTW_F
  | Kind.unreadable => FTW_DNR
  | Kind.nostat => FTW_NS
  | Kind.dangling => FTW_SLN

/-- The entries of one directory, in the order `readdir` yields them: a
directory the walk can read, with its own entries; a symbolic link to such a
directory, with the entries of that directory; or any other entry.  The
directory a link points to is taken to be one the walk reaches by no other
path (`nftw` does not enter a directory twice). -/
inductive Forest where
  | nil
  | dir (name : String) (kids : Forest) (rest : Forest)
  | link (name : String) (target : Forest) (rest : Forest)
  | other (name : String) (kind : Kind) (rest : Forest)
  deriving DecidableEq, Repr

/-- What is found at the path handed to `nftw`. -/
inductive Tree where
  | absent
  | other (kind : Kind)
  | dir (kids : Forest)
  deriving DecidableEq, Repr

/-- One call of the `nftw` callback: the path name, the entry it names (as the
list of names below the walked root), the type flag and `buf->level`. -/
structure Visit where
  path : String
  key : List String
  type : Nat
  level : Nat
  deriving DecidableEq, Repr

/-- Callback calls for the entries of a directory `parent` (entry `key` of the
walk) at depth `level`; with `post` the directory is reported after its
entries, as `FTW_DP`, otherwise before them, as `FTW_D`.  Both walks of
`cleanup` are made without `FTW_PHYS`, so `nftw` follows a symbolic link: a
link to a directory is reported and walked like a directory. -/
def Forest.visits (post : Bool) : Forest → String → List String → Nat → List Visit
  | Forest.nil, _, _, _ => []
  | Forest.dir n kids rest, parent, key, level =>
    let here : Visit := ⟨parent ++ "/" ++ n, key ++ [n], if post then FTW_DP else FTW_D, level⟩
    let below := Forest.visits post kids (parent ++ "/" ++ n) (key ++ [n]) (level + 1)
    (if post then below ++ [here] else here :: below) ++ Forest.visits post rest parent key level
  | Forest.link n target rest, parent, key, level =>
    let here : Visit := ⟨parent ++ "/" ++ n, key ++ [n], if post then FTW_DP else FTW_D, level⟩
    let below := Forest.visits post target (parent ++ "/" ++ n) (key ++ [n]) (level + 1)
    (if post then below ++ [here] else here :: below) ++ Forest.visits post rest parent key level
  | Forest.other n kind rest, parent, key, level =>
    ⟨parent ++ "/" ++ n, key ++ [n], kind.flag, level⟩ :: Forest.visits post rest parent key level

/-- Callback calls of a whole walk rooted at `path`. -/
def Tree.visits (post : Bool) (path : String) : Tree → List Visit
  | Tree.absent => []
  | Tree.other kind => [⟨path, [], kind.flag, 0⟩]
  | Tree.dir kids =>
    let here : Visit := ⟨path, [], if post then FTW_DP else FTW_D, 0⟩
    let below := Forest.visits post kids path [] 1
    if post then below ++ [here] else here :: below

/-- Calls the callback on each visit in turn and stops at the first non-zero
return value, which is the result. -/
def runWalk {σ : Type} (fn : σ → Visit → σ × Int) : List Visit → σ → σ × Int
  | [], s => (s, 0)
  | v :: vs, s =>
    let r := fn s v
    if r.2 != 0 then r else runWalk fn vs r.1

/-- Model of `nftw(path, fn, 8, flags)` on the tree found at `path`: `-1` when
`path` cannot be examined, otherwise the walk in pre-order, or in post-order
when `flags` has `FTW_DEPTH`. -/
def nftw {σ : Type} (t : Tree) (path : String) (fn : σ → Visit → σ × Int) (flags : Nat)
    (s : σ) : σ × Int :=
  match t with
  | Tree.absent => (s, -1)
  | _ => runWalk fn (Tree.visits (flags &&& FTW_DEPTH != 0) path t) s

/-- Removal of the empty directory named by a key below a directory; `none`
when there is no such entry, it is not a directory, or it is not empty.  A
key that passes through a symbolic link names an entry of the directory the
link points to. -/
def Forest.remove : Forest → List String → Option Forest
  | _, [] => none
  | Forest.nil, _ :: _ => none
  | Forest.dir n kids rest, a :: as =>
    if n = a then
      match as with
      | [] => (match kids with
        | Forest.nil => some rest
        | _ => none)
      | _ :: _ => (Forest.remove kids as).map (fun k => Forest.dir n k rest)
    else (Forest.remove rest (a :: as)).map (fun r => Forest.dir n kids r)
  | Forest.link n target rest, a :: as =>
    if n = a then
      match as with
      | [] => none
      | _ :: _ => (Forest.remove target as).map (fun k => Forest.link n k rest)
    else (Forest.remove rest (a :: as)).map (fun r => Forest.link n target r)
  | Forest.other n kind rest, a :: as =>
    if n = a then none
    else (Forest.remove rest (a :: as)).map (fun r => Forest.other n kind r)

def Tree.remove : Tree → List String → Option Tree
  | Tree.dir Forest.nil, [] => some Tree.absent
  | Tree.dir kids, a :: as => (Forest.remove kids (a :: as)).map Tree.dir
  | _, _ => none

/-- Model of `rmdir(2)` on the entry a visit names: fails on a path of the
oracle `rmdirFails`, and otherwise when the entry is missing, not a directory
or not empty. -/
def sysRmdir (s : World × Tree) (v : Visit) : (World × Tree) × Int :=
  let w1 := emit s.1 (Event.rmdir v.path)
  if w1.rmdirFails.contains v.path then ((w1, s.2), -1)
  else
    match s.2.remove v.key with
    | some t => ((w1, t), 0)
    | none => ((w1, s.2), -1)

/-! ## `walk_check`, `walk_remove` and `cleanup` -/

/-- `walk_check`: non-zero for an entry deeper than two levels or one that
is not a directory. -/
def walk_check (s : World × Tree) (v : Visit) : (World × Tree) × Int :=
  (s, if decide (v.level > 2) || v.type != FTW_D then 1 else 0)

/-- `walk_remove`: `rmdir` on every directory, a warning when it fails;
always returns 0. -/
def walk_remove (s : World × Tree) (v : Visit) : (World × Tree) × Int :=
  if FTW_D == v.type || FTW_DP == v.type then
    let r := sysRmdir s v
    if r.2 != 0 then ((warn r.1.1 "rmdir", r.1.2), 0) else (r.1, 0)
  else (s, 0)

/-- `cleanup`: the checking walk, and only if it returns 0 the removing walk. -/
def cleanup (s : World × Tree) (path : String) : (World × Tree) × Int :=
  if (nftw s.2 path walk_check 0 s).2 != 0 then (s, -1)
  else nftw s.2 path walk_remove FTW_DEPTH s

/-! ## `main` -/

/-- The entry `getpwuid` returns. -/
structure Passwd where
  pw_name : String
  pw_dir : String
  pw_shell : String
  deriving DecidableEq, Repr

/-- The global `user`. -/
structure User where
  uid : Nat
  gid : Nat
  home : String
  name : String
  shell : String
  deriving DecidableEq, Repr

/-- One return of `wait(&status)`: a reaped child with its status, or `-1`
with `errno`. -/
inductive WaitOutcome where
  | reaped (pid : Nat) (status : Nat)
  | failed (errno : Nat)
  deriving DecidableEq, Repr

/-- Everything `main` obtains from its environment: return values of the
system calls it checks, the identity of the caller, the successive returns of
`wait`, and the tree `nftw` finds at `path.root` when `cleanup` runs. -/
structure Env where
  unshareRet : Int
  uid : Nat
  gid : Nat
  pwd : Option Passwd
  pid : Nat
  forkRet : Int
  chrootRet : Int
  chdirRet : Int
  setgidRet : Int
  setuidRet : Int
  setuidZeroRet : Int
  execlFails : Bool
  waits : List WaitOutcome
  atExit : Tree
  deriving Repr

/-- How a process ends: through `err`/`errx`, by returning from `main`, by
replacing its image in `execl`, or not at all as far as the model can tell
(the list of `wait` returns is used up while the loop is still running). -/
inductive Final where
  | exited (code : Nat)
  | returned (code : Nat)
  | execed (shell : String)
  | waiting
  deriving DecidableEq, Repr

/-- The macro `WEXITSTATUS` of glibc. -/
def WEXITSTATUS (status : Nat) : Nat := (status &&& 0xff00) >>> 8

/-- The child branch of `main` (`pid == 0`): chroot, chdir, setgid, setuid,
the check that `setuid (0)` fails, and `execl`.  Each failure leaves through
`err`. -/
def child (e : Env) (path : Paths) (user : User) (w : World) : Final × World :=
  let w1 := emit w (Event.chroot path.root)
  if e.chrootRet != 0 then (Final.exited EXIT_FAILURE, w1) else
  let w2 := emit w1 (Event.chdir user.home)
  if e.chdirRet != 0 then (Final.exited EXIT_FAILURE, w2) else
  let w3 := emit w2 (Event.setgid user.gid)
  if e.setgidRet != 0 then (Final.exited EXIT_FAILURE, w3) else
  let w4 := emit w3 (Event.setuid user.uid)
  if e.setuidRet != 0 then (Final.exited EXIT_FAILURE, w4) else
  let w5 := emit w4 (Event.setuid 0)
  if e.setuidZeroRet == 0 then (Final.exited EXIT_FAILURE, w5) else
  let w6 := emit w5 (Event.execl user.shell)
  if e.execlFails then (Final.exited EXIT_FAILURE, w6) else (Final.execed user.shell, w6)

/-- The parent branch of `main`: the `for (;;)` loop around `wait`.  A reaped
child or `EINTR` continues the loop; any other failure ends it, with a warning
unless it is `ECHILD`.  Returns `none` when the given returns of `wait` are
used up before the loop ends. -/
def waitLoop : List WaitOutcome → World → Nat → Option (World × Nat)
  | [], _, _ => none
  | WaitOutcome.reaped _ s :: rest, w, _ =>
    waitLoop rest (emit { w with errno := 0 } Event.wait) s
  | WaitOutcome.failed en :: rest, w, status =>
    let w1 := { emit { w with errno := 0 } Event.wait with errno := en }
    if en == EINTR then waitLoop rest w1 status
    else if en != ECHILD then some (warn w1 "wait", status)
    else some (w1, status)

/-- The loop `for (i = 0; i < lengthof (mounts); i++) mount_bind (mounts + i)`. -/
def bindAll (path : Paths) : List Mount → World → Result (List Mount)
  | [], w => Result.ok [] w
  | m :: ms, w =>
    match mount_bind path w m with
    | Result.exit c w1 => Result.exit c w1
    | Result.ok m1 w1 =>
      match bindAll path ms w1 with
      | Result.exit c w2 => Result.exit c w2
      | Result.ok ms1 w2 => Result.ok (m1 :: ms1) w2

/-- The loop `for (i = lengthof (mounts) - 1; i >= 0; i--) mount_eject (mounts + i)`:
the tail of the table is ejected before its head. -/
def ejectAll : List Mount → World → World × List Mount
  | [], w => (w, [])
  | m :: ms, w =>
    let r := ejectAll ms w
    let r1 := mount_eject r.1 m
    (r1.1, r1.2 :: r.2)

/-- What is left of `main` once the child has been waited for: eject `home`,
eject the table backwards, `cleanup`, and return the exit status. -/
def teardown (e : Env) (path : Paths) (tbl : List Mount) (hm : Mount) (status : Nat)
    (w : World) : Final × World :=
  let r1 := mount_eject w hm
  let r2 := ejectAll tbl r1.1
  let r3 := cleanup (r2.1, e.atExit) path.root
  let w3 := if r3.2 != 0
    then warn r3.1.1 ("cleanup: leaving " ++ path.root ++ " untouched") else r3.1.1
  (Final.returned (WEXITSTATUS status), w3)

/-- `main`, from `fork` on. -/
def mainFork (e : Env) (path : Paths) (user : User) (tbl : List Mount) (hm : Mount)
    (w : World) : Final × World :=
  let w1 := emit w Event.fork
  if e.forkRet == -1 then (Final.exited EXIT_FAILURE, w1)
  else if e.forkRet == 0 then child e path user w1
  else
    match waitLoop e.waits w1 0 with
    | none => (Final.waiting, w1)
    | some r => teardown e path tbl hm r.2 r.1

/-- `main`, from the two `mkdirp` calls on: the scaffold, the table mounts,
the home mount when an argument is given, and the rest. -/
def mainSetup (e : Env) (argv : List String) (path : Paths) (user : User)
    (w : World) : Final × World :=
  let w1 := mkdirp (mkdirp w path.root) path.home
  match bindAll path mounts w1 with
  | Result.exit c w2 => (Final.exited c, w2)
  | Result.ok tbl w2 =>
    if argv.length > 1 then
      match mount_bind path w2 { home with source := argv.get? 1, target := some path.home } with
      | Result.exit c w3 => (Final.exited c, w3)
      | Result.ok hm w3 => mainFork e path user tbl hm w3
    else mainFork e path user tbl home w2

/-- `main`: a private mount namespace, the caller's identity, the paths of
the box, then `mainSetup`.  (`asprintf` is taken to succeed.) -/
def main (e : Env) (argv : List String) (w : World) : Final × World :=
  let w1 := emit w (Event.unshare CLONE_NEWNS)
  if e.unshareRet != 0 then (Final.exited EXIT_FAILURE, w1) else
  let r := sysMount w1 none (some "/") (some "") (MS_PRIVATE ||| MS_REC)
  if r.2 != 0 then (Final.exited EXIT_FAILURE, r.1) else
  if e.uid == 0 then (Final.exited EXIT_FAILURE, r.1) else
  match e.pwd with
  | none => (Final.exited EXIT_FAILURE, r.1)
  | some pwd =>
    let user : User := ⟨e.uid, e.gid, pwd.pw_dir, pwd.pw_name, pwd.pw_shell⟩
    let root := user.home ++ "/.cache/dotbox/" ++ toString e.pid
    let path : Paths := ⟨root, root ++ user.home⟩
    if statOk r.1 path.root then (Final.exited EXIT_FAILURE, r.1)
    else mainSetup e argv path user r.1

/-! ## Vocabulary of the statements -/

/-- The characters of `/c1/c2/.../cn`. -/
def absChars : List (List Char) → List Char
  | [] => []
  | c :: cs => '/' :: (c ++ absChars cs)

/-- The absolute path `/c1/c2/.../cn` with the given components. -/
def absPath (comps : List String) : String := String.mk (absChars (comps.map String.data))

/-- The proper prefixes `done/c1`, `done/c1/c2`, ... up to the whole path,
shortest first. -/
def prefixChars : List Char → List (List Char) → List (List Char)
  | _, [] => []
  | done, c :: cs => (done ++ '/' :: c) :: prefixChars (done ++ '/' :: c) cs

/-- The paths `/c1`, `/c1/c2`, ..., `/c1/.../cn`. -/
def pathPrefixes (comps : List String) : List String :=
  (prefixChars [] (comps.map String.data)).map String.mk

/-- A path component as a C string has it: no slash and no NUL inside. -/
def IsComponent (c : String) : Prop := ∀ ch ∈ c.data, ch ≠ '/' ∧ ch ≠ NUL

instance (c : String) : Decidable (IsComponent c) := by
  unfold IsComponent
  infer_instance

/-- The paths handed to `mkdir`, in the order of the calls. -/
def mkdirCalls : List Event → List String
  | [] => []
  | Event.mkdir p _ :: es => p :: mkdirCalls es
  | _ :: es => mkdirCalls es

/-- The calls of `mount` that name a source, i.e. those of `mount_bind`, as
pairs of target and flags, in the order of the calls.  (The call with a
`NULL` source at the start of `main` changes the propagation of `/` and
mounts nothing.) -/
def bindCalls : List Event → List (Option String × Nat)
  | [] => []
  | Event.mount (some _) t _ fl :: es => (t, fl) :: bindCalls es
  | _ :: es => bindCalls es

/-- The targets handed to `mount` by `mount_bind`, in the order of the calls. -/
def mountTargets (es : List Event) : List (Option String) := (bindCalls es).map Prod.fst

/-- The targets handed to `umount`, in the order of the calls. -/
def umountTargets : List Event → List (Option String)
  | [] => []
  | Event.umount t :: es => t :: umountTargets es
  | _ :: es => umountTargets es

/-- The world `w1` continues `w`: its trace is that of `w` followed by
events whose bind mounts are `bc` and whose `umount` targets are `ut`. -/
def Ext (w w1 : World) (bc : List (Option String × Nat)) (ut : List (Option String)) : Prop :=
  ∃ l, w1.trace = w.trace ++ l ∧ bindCalls l = bc ∧ umountTargets l = ut

/-- The world a `Result` carries. -/
def Result.world {α : Type} : Result α → World
  | Result.ok _ w => w
  | Result.exit _ w => w

/-- Targets of the entries that are marked as mounted, in table order. -/
def mountedTargets (ms : List Mount) : List (Option String) :=
  (ms.filter (fun m => m.mounted)).map (fun m => m.target)

/-- The paths handed to `rmdir`, in the order of the calls. -/
def rmdirCalls : List Event → List String
  | [] => []
  | Event.rmdir p :: es => p :: rmdirCalls es
  | _ :: es => rmdirCalls es

/-- Some entry of the directory is not a (readable) directory, at any depth;
a symbolic link is not a directory. -/
def Forest.hasOther : Forest → Bool
  | Forest.nil => false
  | Forest.dir _ kids rest => Forest.hasOther kids || Forest.hasOther rest
  | Forest.link _ _ _ => true
  | Forest.other _ _ _ => true

/-- Every entry of the directory is a directory, at every depth the walk can
see; a directory that cannot be read is a directory all the same. -/
def Forest.onlyDirectories : Forest → Bool
  | Forest.nil => true
  | Forest.dir _ kids rest => Forest.onlyDirectories kids && Forest.onlyDirectories rest
  | Forest.link _ _ _ => false
  | Forest.other _ kind rest => kind == Kind.unreadable && Forest.onlyDirectories rest

/-- Some entry of the directory is a symbolic link to a directory, at any depth. -/
def Forest.hasLink : Forest → Bool
  | Forest.nil => false
  | Forest.dir _ kids rest => Forest.hasLink kids || Forest.hasLink rest
  | Forest.link _ _ _ => true
  | Forest.other _ _ rest => Forest.hasLink rest

/-- Some entry lies deeper than two levels below the walked root, the entries
of this directory being at depth `level`. -/
def Forest.hasDeep : Forest → Nat → Bool
  | Forest.nil, _ => false
  | Forest.dir _ kids rest, level =>
    decide (level > 2) || Forest.hasDeep kids (level + 1) || Forest.hasDeep rest level
  | Forest.link _ _ rest, level => decide (level > 2) || Forest.hasDeep rest level
  | Forest.other _ _ rest, level => decide (level > 2) || Forest.hasDeep rest level

/-- The checking walk meets an entry it rejects: one at a level above 2 or
one not reported as `FTW_D`. -/
def Forest.rejected : Forest → Nat → Bool
  | Forest.nil, _ => false
  | Forest.dir _ kids rest, level =>
    decide (level > 2) || Forest.rejected kids (level + 1) || Forest.rejected rest level
  | Forest.link _ target rest, level =>
    decide (level > 2) || Forest.rejected target (level + 1) || Forest.rejected rest level
  | Forest.other _ _ _, _ => true

def Tree.hasOther : Tree → Bool
  | Tree.absent => false
  | Tree.other _ => true
  | Tree.dir kids => Forest.hasOther kids

def Tree.hasDeep : Tree → Bool
  | Tree.dir kids => Forest.hasDeep kids 1
  | _ => false

def Tree.onlyDirectories : Tree → Bool
  | Tree.absent => false
  | Tree.other kind => kind == Kind.unreadable
  | Tree.dir kids => Forest.onlyDirectories kids

def Tree.hasLink : Tree → Bool
  | Tree.dir kids => Forest.hasLink kids
  | _ => false

def Tree.rejected : Tree → Bool
  | Tree.absent => false
  | Tree.other _ => true
  | Tree.dir kids => Forest.rejected kids 1

/-- The names between the slashes of a path, `cur` being the name read so far. -/
def splitComponents : List Char → List Char → List String
  | [], cur => if cur.isEmpty then [] else [String.mk cur]
  | ch :: rest, cur =>
    if ch == '/' then
      (if cur.isEmpty then splitComponents rest [] else String.mk cur :: splitComponents rest [])
    else splitComponents rest (cur ++ [ch])

/-- A directory holding a directory holding ..., one level per name. -/
def Forest.chain : List String → Forest
  | [] => Forest.nil
  | a :: as => Forest.dir a (Forest.chain as) Forest.nil

/-- The entries of a directory after the directories along the given names
have been added below it. -/
def Forest.insert : Forest → List String → Forest
  | f, [] => f
  | Forest.nil, a :: as => Forest.chain (a :: as)
  | Forest.dir n kids rest, a :: as =>
    if n = a then Forest.dir n (Forest.insert kids as) rest
    else Forest.dir n kids (Forest.insert rest (a :: as))
  | Forest.link n target rest, a :: as => Forest.link n target (Forest.insert rest (a :: as))
  | Forest.other n kind rest, a :: as => Forest.other n kind (Forest.insert rest (a :: as))

/-- The directories of the world below `root`, as the tree a walk of `root`
finds. -/
def treeAt (w : World) (root : String) : Tree :=
  if w.dirs.contains root then
    Tree.dir ((w.dirs.filterMap (fun d =>
      if (root.data ++ ['/']).isPrefixOf d.data
      then some (splitComponents (d.data.drop root.data.length) []) else none)).foldl
        Forest.insert Forest.nil)
  else if w.files.contains root then Tree.other Kind.file
  else Tree.absent

/-! ## Sample runs -/

/-- A host with a few of the table's directories and a home three levels deep. -/
def deepHost : World :=
  { dirs := ["/bin", "/dev", "/dev/pts", "/etc", "/home", "/home/staff", "/home/staff/u", "/tmp"]
    files := []
    mountFails := []
    umountFails := []
    rmdirFails := []
    errno := 0
    trace := [] }

/-- The scaffold `main` builds on `deepHost` in this model, where `mkdir`
does not see mounts; on a host `dev/pts` is made inside the mounted `/dev`
and is not part of the scaffold. -/
def deepScaffold : Tree :=
  Tree.dir
    (Forest.dir "home" (Forest.dir "staff" (Forest.dir "u" Forest.nil Forest.nil) Forest.nil)
    (Forest.dir "bin" Forest.nil
    (Forest.dir "dev" (Forest.dir "pts" Forest.nil Forest.nil)
    (Forest.dir "etc" Forest.nil
    (Forest.dir "tmp" Forest.nil Forest.nil)))))

/-- A run by uid 1000 with home `/home/staff/u` as process 4242: every system
call succeeds, the shell exits with code 0, and at exit the scaffold is as
`main` built it. -/
def deepRun : Env :=
  { unshareRet := 0
    uid := 1000
    gid := 1000
    pwd := some ⟨"u", "/home/staff/u", "/bin/sh"⟩
    pid := 4242
    forkRet := 4243
    chrootRet := 0
    chdirRet := 0
    setgidRet := 0
    setuidRet := 0
    setuidZeroRet := -1
    execlFails := false
    waits := [WaitOutcome.reaped 4243 0, WaitOutcome.failed ECHILD]
    atExit := deepScaffold }

/-- A host with a few of the table's directories and a home two levels deep. -/
def plainHost : World :=
  { dirs := ["/bin", "/dev", "/dev/pts", "/home", "/home/u", "/tmp", "/tmp/alt"]
    files := []
    mountFails := []
    umountFails := []
    rmdirFails := []
    errno := 0
    trace := [] }

/-- The scaffold `main` builds on `plainHost` in this model, where `mkdir`
does not see mounts; on a host `dev/pts` is made inside the mounted `/dev`
and is not part of the scaffold. -/
def plainScaffold : Tree :=
  Tree.dir
    (Forest.dir "home" (Forest.dir "u" Forest.nil Forest.nil)
    (Forest.dir "bin" Forest.nil
    (Forest.dir "dev" (Forest.dir "pts" Forest.nil Forest.nil)
    (Forest.dir "tmp" Forest.nil Forest.nil))))

/-- A run by uid 1000 with home `/home/u` as process 4242: every system call
succeeds, one `wait` is interrupted, the shell exits with code 3, and at exit
the scaffold is as `main` built it. -/
def plainRun : Env :=
  { unshareRet := 0
    uid := 1000
    gid := 1000
    pwd := some ⟨"u", "/home/u", "/bin/sh"⟩
    pid := 4242
    forkRet := 4243
    chrootRet := 0
    chdirRet := 0
    setgidRet := 0
    setuidRet := 0
    setuidZeroRet := -1
    execlFails := false
    waits := [WaitOutcome.failed EINTR, WaitOutcome.reaped 4243 (3 <<< 8), WaitOutcome.failed ECHILD]
    atExit := plainScaffold }

/-- A scaffold in which `x` is a symbolic link to a directory elsewhere that
holds one empty directory `s`, next to the mount point `bin`. -/
def linkedScaffold : Tree :=
  Tree.dir
    (Forest.link "x" (Forest.dir "s" Forest.nil Forest.nil)
    (Forest.dir "bin" Forest.nil Forest.nil))

/-! ## Theorems -/

set_option maxRecDepth 1000000

theorem sysUmount_fst (w : World) (t : Option String) :
    (sysUmount w t).1 = emit w (Event.umount t) := by
  unfold sysUmount
  cases t with
  | none => rfl
  | some t => dsimp only; split <;> rfl

theorem sysMount_fst (w : World) (s t ty : Option String) (fl : Nat) :
    (sysMount w s t ty fl).1 = emit w (Event.mount s t ty fl) := by
  unfold sysMount
  cases t with
  | none => rfl
  | some t => dsimp only; split <;> rfl

/-- C6: ejecting an entry that is marked as mounted issues one `umount`, on
the target of the entry (followed by a warning when it fails), and clears
`mounted` whether or not the `umount` succeeds; ejecting the result again, in
any world, changes neither the world nor the entry; and ejecting an entry that
is not marked as mounted changes nothing. -/
theorem mount_eject_once (w w2 : World) (mnt : Mount) (h : mnt.mounted = true) :
    (mount_eject w mnt).1.trace = w.trace ++ Event.umount mnt.target ::
        (if (sysUmount w mnt.target).2 != 0 then [Event.warn "umount"] else [])
      ∧ (mount_eject w mnt).2 = { mnt with mounted := false }
      ∧ mount_eject w2 (mount_eject w mnt).2 = (w2, (mount_eject w mnt).2)
      ∧ (∀ (w0 : World) (m0 : Mount), m0.mounted = false → mount_eject w0 m0 = (w0, m0)) := by
  refine ⟨?_, ?_, ?_, ?_⟩
  · unfold mount_eject
    simp only [h, if_true, sysUmount_fst]
    by_cases hf : ((sysUmount w mnt.target).2 != 0) = true
    · simp [hf, warn, emit]
    · simp [hf, emit]
  · simp [mount_eject, h]
  · simp [mount_eject, h]
  · intro w0 m0 h0
    simp [mount_eject, h0]

/-- C2: the calls of the child are a prefix of chroot, chdir, setgid, setuid,
`setuid (0)`, execl.  When `execl` is among them, the four calls before the
check returned 0, `setuid (0)` did not, and the calls were made in exactly
this order; when `setuid (0)` returns 0 the child exits with `EXIT_FAILURE`
and `execl` is not called, whatever the earlier calls returned; and the child
becomes the shell only through that `execl`. -/
theorem child_exec_guard (e : Env) (path : Paths) (user : User) (w : World) :
    ∃ l, (child e path user w).2.trace = w.trace ++ l
      ∧ ((∃ sh, Event.execl sh ∈ l) →
          e.chrootRet = 0 ∧ e.chdirRet = 0 ∧ e.setgidRet = 0 ∧ e.setuidRet = 0
            ∧ e.setuidZeroRet ≠ 0
            ∧ l = [Event.chroot path.root, Event.chdir user.home, Event.setgid user.gid,
                Event.setuid user.uid, Event.setuid 0, Event.execl user.shell])
      ∧ (e.setuidZeroRet = 0 →
          (child e path user w).1 = Final.exited EXIT_FAILURE ∧ ∀ sh, Event.execl sh ∉ l)
      ∧ (∀ sh, (child e path user w).1 = Final.execed sh → Event.execl sh ∈ l) := by
  unfold child
  by_cases h1 : e.chrootRet = 0 <;> by_cases h2 : e.chdirRet = 0 <;>
    by_cases h3 : e.setgidRet = 0 <;> by_cases h4 : e.setuidRet = 0 <;>
    by_cases h5 : e.setuidZeroRet = 0 <;> by_cases h6 : e.execlFails = true <;>
    simp [h1, h2, h3, h4, h5, h6, emit]

theorem WEXITSTATUS_eq (s : Nat) : WEXITSTATUS s = (s >>> 8) &&& 0xff := by
  unfold WEXITSTATUS
  apply Nat.eq_of_testBit_eq
  intro i
  have h : (0xff00 : Nat) = 0xff <<< 8 := by decide
  rw [Nat.testBit_shiftRight, Nat.testBit_and, Nat.testBit_and, Nat.testBit_shiftRight, h,
    Nat.testBit_shiftLeft]
  simp

theorem WEXITSTATUS_exit (c : Nat) (hc : c < 256) : WEXITSTATUS (c <<< 8) = c := by
  rw [WEXITSTATUS_eq, Nat.shiftLeft_shiftRight]
  have : (0xff : Nat) = 2 ^ 8 - 1 := by decide
  rw [this, Nat.and_pow_two_sub_one_eq_mod]
  exact Nat.mod_eq_of_lt hc

theorem waitLoop_eintr (n : Nat) (rest : List WaitOutcome) (w : World) (st : Nat) :
    ∃ w1, waitLoop (List.replicate n (WaitOutcome.failed EINTR) ++ rest) w st
        = waitLoop rest w1 st
      ∧ w1.trace = w.trace ++ List.replicate n Event.wait := by
  induction n generalizing w with
  | zero => exact ⟨w, by simp, by simp⟩
  | succ k ih =>
    rw [List.replicate_succ, List.cons_append, waitLoop]
    simp only [beq_self_eq_true, if_true]
    obtain ⟨w1, h1, h2⟩ := ih { emit { w with errno := 0 } Event.wait with errno := EINTR }
    refine ⟨w1, h1, ?_⟩
    rw [h2]
    simp [emit, List.replicate_succ]

theorem waitLoop_reap (n m p s : Nat) (w : World) (st : Nat) :
    ∃ w1, waitLoop (List.replicate n (WaitOutcome.failed EINTR) ++ WaitOutcome.reaped p s ::
        (List.replicate m (WaitOutcome.failed EINTR) ++ [WaitOutcome.failed ECHILD])) w st
          = some (w1, s)
      ∧ w1.trace = w.trace ++ List.replicate (n + m + 2) Event.wait := by
  obtain ⟨w1, h1, t1⟩ := waitLoop_eintr n (WaitOutcome.reaped p s ::
        (List.replicate m (WaitOutcome.failed EINTR) ++ [WaitOutcome.failed ECHILD])) w st
  obtain ⟨w2, h2, t2⟩ := waitLoop_eintr m [WaitOutcome.failed ECHILD]
    (emit { w1 with errno := 0 } Event.wait) s
  refine ⟨{ emit { w2 with errno := 0 } Event.wait with errno := ECHILD }, ?_, ?_⟩
  · rw [h1, waitLoop, h2]
    simp [waitLoop, ECHILD, EINTR]
  · simp only [emit, t2, t1, List.append_assoc]
    congr 1
    rw [show n + m + 2 = n + (1 + (m + 1)) by omega, List.replicate_add, List.replicate_add,
      List.replicate_add]
    rfl

theorem child_final (e : Env) (path : Paths) (user : User) (w : World) :
    (child e path user w).1 = Final.exited EXIT_FAILURE
      ∨ (child e path user w).1 = Final.execed user.shell := by
  unfold child
  by_cases h1 : e.chrootRet = 0 <;> by_cases h2 : e.chdirRet = 0 <;>
    by_cases h3 : e.setgidRet = 0 <;> by_cases h4 : e.setuidRet = 0 <;>
    by_cases h5 : e.setuidZeroRet = 0 <;> by_cases h6 : e.execlFails = true <;>
    simp [h1, h2, h3, h4, h5, h6]

theorem teardown_final (e : Env) (path : Paths) (tbl : List Mount) (hm : Mount) (status : Nat)
    (w : World) : (teardown e path tbl hm status w).1 = Final.returned (WEXITSTATUS status) := rfl

/-- The ways `main` can end, given how the part from `fork` on ends. -/
theorem main_final_cases (e : Env) (argv : List String) (w : World) (P : Final → Prop)
    (hexit : ∀ c, P (Final.exited c))
    (hfork : ∀ path user tbl hm w1, P (mainFork e path user tbl hm w1).1) :
    P (main e argv w).1 := by
  unfold main
  simp only []
  split
  · exact hexit _
  split
  · exact hexit _
  split
  · exact hexit _
  split
  · exact hexit _
  split
  · exact hexit _
  unfold mainSetup
  simp only []
  split
  · exact hexit _
  split
  · split
    · exact hexit _
    · exact hfork _ _ _ _ _
  · exact hfork _ _ _ _ _

/-- C8: when `wait` is interrupted any number of times, reaps the child with
status `s`, and then reports `ECHILD`, the wait loop ends with `s` and adds
nothing but the `wait` calls to the trace (no warning); `main` from `fork` on
returns `(s >> 8) & 0xff` in the parent; `main` as a whole never stays in the
loop and returns no other code; and that code is `c` for a child that exited
normally with code `c < 256`. -/
theorem main_exit_status (e : Env) (argv : List String) (w : World) (n m p s : Nat)
    (hw : e.waits = List.replicate n (WaitOutcome.failed EINTR) ++ WaitOutcome.reaped p s ::
      (List.replicate m (WaitOutcome.failed EINTR) ++ [WaitOutcome.failed ECHILD])) :
    (∃ w1, waitLoop e.waits w 0 = some (w1, s)
        ∧ w1.trace = w.trace ++ List.replicate (n + m + 2) Event.wait)
      ∧ (∀ path user tbl hm w0, e.forkRet ≠ -1 → e.forkRet ≠ 0 →
          (mainFork e path user tbl hm w0).1 = Final.returned ((s >>> 8) &&& 0xff))
      ∧ (main e argv w).1 ≠ Final.waiting
      ∧ (∀ code, (main e argv w).1 = Final.returned code → code = (s >>> 8) &&& 0xff)
      ∧ (∀ c, c < 256 → s = c <<< 8 → (s >>> 8) &&& 0xff = c) := by
  have hfork : ∀ path user tbl hm w0,
      (mainFork e path user tbl hm w0).1 = Final.exited EXIT_FAILURE
        ∨ (mainFork e path user tbl hm w0).1 = Final.execed user.shell
        ∨ (e.forkRet ≠ -1 ∧ e.forkRet ≠ 0
            ∧ (mainFork e path user tbl hm w0).1 = Final.returned ((s >>> 8) &&& 0xff)) := by
    intro path user tbl hm w0
    unfold mainFork
    simp only []
    by_cases h1 : e.forkRet = -1
    · simp [h1]
    by_cases h0 : e.forkRet = 0
    · simp only [h0]
      rcases child_final e path user (emit w0 Event.fork) with h | h
      · left; simpa using h
      · right; left; simpa using h
    · right; right
      obtain ⟨w1, hl, _⟩ := waitLoop_reap n m p s (emit w0 Event.fork) 0
      simp [h1, h0, hw, hl, teardown_final, WEXITSTATUS_eq]
  refine ⟨?_, ?_, ?_, ?_, ?_⟩
  · rw [hw]
    exact waitLoop_reap n m p s w 0
  · intro path user tbl hm w0 h1 h0
    rcases hfork path user tbl hm w0 with h | h | h
    · simp [mainFork, h1, h0] at h
      obtain ⟨w1, hl, _⟩ := waitLoop_reap n m p s (emit w0 Event.fork) 0
      rw [hw, hl] at h
      simp [teardown_final] at h
    · simp [mainFork, h1, h0] at h
      obtain ⟨w1, hl, _⟩ := waitLoop_reap n m p s (emit w0 Event.fork) 0
      rw [hw, hl] at h
      simp [teardown_final] at h
    · exact h.2.2
  · refine main_final_cases e argv w (fun f => f ≠ Final.waiting) (fun c => by simp) ?_
    intro path user tbl hm w0
    rcases hfork path user tbl hm w0 with h | h | h
    · simp [h]
    · simp [h]
    · simp [h.2.2]
  · refine main_final_cases e argv w
      (fun f => ∀ code, f = Final.returned code → code = (s >>> 8) &&& 0xff)
      (fun c code h => by simp at h) ?_
    intro path user tbl hm w0 code hc
    rcases hfork path user tbl hm w0 with h | h | h
    · simp [h] at hc
    · simp [h] at hc
    · rw [h.2.2] at hc
      exact (Final.returned.inj hc).symm
  · intro c hc hs
    rw [hs, ← WEXITSTATUS_eq]
    exact WEXITSTATUS_exit c hc

theorem set_length_append (done : List Char) (x y : Char) (t : List Char) :
    (done ++ x :: t).set done.length y = done ++ y :: t := by
  induction done with
  | nil => rfl
  | cons d ds ih => simp [List.set, ih]

theorem takeWhile_append_all (p : Char → Bool) (a b : List Char) (h : ∀ c ∈ a, p c = true) :
    (a ++ b).takeWhile p = a ++ b.takeWhile p := by
  induction a with
  | nil => rfl
  | cons x xs ih =>
    have hx : p x = true := h x (List.mem_cons_self _ _)
    simp [List.takeWhile, hx, ih (fun c hc => h c (List.mem_cons_of_mem _ hc))]

theorem map_zap_component (c : List Char) (h : ∀ ch ∈ c, ch ≠ '/') : c.map zap = c := by
  induction c with
  | nil => rfl
  | cons x xs ih =>
    have hx : x ≠ '/' := h x (List.mem_cons_self _ _)
    simp [zap, hx, ih (fun c hc => h c (List.mem_cons_of_mem _ hc))]

theorem cstr_zap_absChars (cs : List (List Char)) : cstr ((absChars cs).map zap) = [] := by
  cases cs with
  | nil => rfl
  | cons c cs => simp [absChars, zap, cstr, List.takeWhile]

theorem mkdirpLoop_skip (c rest : List Char) (h : ∀ ch ∈ c, ch ≠ '/') (i : Nat)
    (copy : List Char) (w : World) :
    mkdirpLoop (c ++ rest) i copy w = mkdirpLoop rest (i + c.length) copy w := by
  induction c generalizing i with
  | nil => rfl
  | cons x xs ih =>
    have hx : x ≠ '/' := h x (List.mem_cons_self _ _)
    rw [List.cons_append, mkdirpLoop]
    simp only [bne_iff_ne, ne_eq, hx, not_false_eq_true, if_true]
    rw [ih (fun c hc => h c (List.mem_cons_of_mem _ hc))]
    simp [Nat.add_assoc, Nat.add_comm 1]

theorem cstr_component (c : List Char) (h : ∀ ch ∈ c, ch ≠ NUL) (b : List Char) :
    cstr (c ++ b) = c ++ cstr b := by
  unfold cstr
  exact takeWhile_append_all _ c b (fun ch hc => by simpa using h ch hc)

theorem cstr_self (c : List Char) (h : ∀ ch ∈ c, ch ≠ NUL) : cstr c = c := by
  have := cstr_component c h []
  simpa [cstr] using this

/-- The loop of `mkdirp` on `/c1/.../cn`, entered with `done` already
restored in `copy`, creates `done/c1`, `done/c1/c2`, ... in turn. -/
theorem mkdirpLoop_components (cs : List (List Char))
    (h : ∀ c ∈ cs, ∀ ch ∈ c, ch ≠ '/' ∧ ch ≠ NUL) (done : List Char)
    (hd : ∀ ch ∈ done, ch ≠ NUL) (w : World) :
    mkdirpLoop (absChars cs) done.length (done ++ (absChars cs).map zap) w
      = (prefixChars done cs).foldl (fun w q => mkdirv w (String.mk q) 511) w := by
  induction cs generalizing done w with
  | nil => rfl
  | cons c cs ih =>
    have hc := h c (List.mem_cons_self _ _)
    have hcs : ∀ x ∈ cs, ∀ ch ∈ x, ch ≠ '/' ∧ ch ≠ NUL :=
      fun x hx => h x (List.mem_cons_of_mem _ hx)
    have hslash : ∀ ch ∈ c, ch ≠ '/' := fun ch hch => (hc ch hch).1
    have hnul : ∀ ch ∈ c, ch ≠ NUL := fun ch hch => (hc ch hch).2
    have hd1 : ∀ ch ∈ done ++ '/' :: c, ch ≠ NUL := by
      intro ch hch
      rcases List.mem_append.mp hch with h1 | h1
      · exact hd ch h1
      · rcases List.mem_cons.mp h1 with h2 | h2
        · rw [h2]; decide
        · exact hnul ch h2
    have hcopy : (done ++ List.map zap ('/' :: (c ++ absChars cs))).set done.length '/'
        = (done ++ '/' :: c) ++ (absChars cs).map zap := by
      simp only [List.map_cons, List.map_append, set_length_append,
        map_zap_component c hslash, List.append_assoc, List.cons_append]
    have hstr : cstr ((done ++ '/' :: c) ++ (absChars cs).map zap) = done ++ '/' :: c := by
      rw [cstr_component _ hd1, cstr_zap_absChars, List.append_nil]
    have hlen : done.length + 1 + c.length = (done ++ '/' :: c).length := by
      simp [Nat.add_assoc, Nat.add_comm 1]
    show mkdirpLoop ('/' :: (c ++ absChars cs)) done.length
      (done ++ List.map zap ('/' :: (c ++ absChars cs))) w = _
    rw [mkdirpLoop]
    simp only [bne_self_eq_false, Bool.false_eq_true, if_false]
    rw [hcopy, hstr, mkdirpLoop_skip c _ hslash, hlen, ih hcs _ hd1]
    rfl

theorem absChars_no_nul (cs : List (List Char)) (h : ∀ c ∈ cs, ∀ ch ∈ c, ch ≠ '/' ∧ ch ≠ NUL) :
    ∀ ch ∈ absChars cs, ch ≠ NUL := by
  induction cs with
  | nil => intro ch hch; cases hch
  | cons c cs ih =>
    intro ch hch
    simp only [absChars, List.mem_cons, List.mem_append] at hch
    rcases hch with h1 | h1 | h1
    · rw [h1]; decide
    · exact (h c (List.mem_cons_self _ _) ch h1).2
    · exact ih (fun x hx => h x (List.mem_cons_of_mem _ hx)) ch h1

/-- On `/c1/.../cn`, `mkdirp` is `mkdirv` on each prefix in turn. -/
theorem mkdirp_absPath (w : World) (comps : List String) (h : ∀ c ∈ comps, IsComponent c) :
    mkdirp w (absPath comps)
      = (pathPrefixes comps).foldl (fun w q => mkdirv w q 511) w := by
  have hcs : ∀ c ∈ comps.map String.data, ∀ ch ∈ c, ch ≠ '/' ∧ ch ≠ NUL := by
    intro c hc
    obtain ⟨s, hs, rfl⟩ := List.mem_map.mp hc
    exact h s hs
  have hp : cstr (absPath comps).data = absChars (comps.map String.data) :=
    cstr_self _ (absChars_no_nul _ hcs)
  have hhead : ((absChars (comps.map String.data)).map zap).head? = none
      ∨ ((absChars (comps.map String.data)).map zap).head? = some NUL := by
    cases comps.map String.data with
    | nil => left; rfl
    | cons c cs => right; simp [absChars, zap]
  have hloop := mkdirpLoop_components (comps.map String.data) hcs [] (by simp) w
  simp only [List.length_nil, List.nil_append] at hloop
  unfold mkdirp
  simp only [hp]
  have hskip : (((absChars (comps.map String.data)).map zap).head? != none
      && ((absChars (comps.map String.data)).map zap).head? != some NUL) = false := by
    rcases hhead with h1 | h1 <;> simp [h1]
  rw [hskip]
  simp only [Bool.false_eq_true, if_false]
  rw [hloop, pathPrefixes, List.foldl_map]

theorem mkdirv_exists (w : World) (p : String) (m : Nat) (h : statOk w p = true) :
    mkdirv w p m = { w with errno := EEXIST, trace := w.trace ++ [Event.mkdir p m] } := by
  have h1 : statOk (emit { w with errno := 0 } (Event.mkdir p m)) p = true := h
  simp only [mkdirv, sysMkdir, h1, if_true]
  simp [emit]

theorem mkdirv_creates (w : World) (p : String) (m : Nat) (h : statOk w p = false)
    (hp : isDirectory w (parentOf p) = true) :
    mkdirv w p m
      = { w with errno := 0, dirs := w.dirs ++ [p], trace := w.trace ++ [Event.mkdir p m] } := by
  have h1 : statOk (emit { w with errno := 0 } (Event.mkdir p m)) p = false := h
  have h2 : isDirectory (emit { w with errno := 0 } (Event.mkdir p m)) (parentOf p) = true := hp
  simp only [mkdirv, sysMkdir, h1, h2, if_true, Bool.false_eq_true, if_false]
  simp [emit]

theorem mkdirv_frame (w : World) (p : String) (m : Nat) :
    (mkdirv w p m).files = w.files
      ∧ (mkdirv w p m).mountFails = w.mountFails
      ∧ (mkdirv w p m).umountFails = w.umountFails
      ∧ (∃ l, (mkdirv w p m).trace = w.trace ++ Event.mkdir p m :: l
          ∧ ∀ e ∈ l, e = Event.warn "mkdir")
      ∧ (∀ d, d ∈ w.dirs → d ∈ (mkdirv w p m).dirs) := by
  by_cases h : statOk w p = true
  · rw [mkdirv_exists w p m h]
    exact ⟨rfl, rfl, rfl, ⟨[], rfl, by simp⟩, fun d hd => hd⟩
  · have h := Bool.not_eq_true _ ▸ h
    by_cases hp : isDirectory w (parentOf p) = true
    · rw [mkdirv_creates w p m h hp]
      exact ⟨rfl, rfl, rfl, ⟨[], rfl, by simp⟩, fun d hd => List.mem_append_left _ hd⟩
    · have hp := Bool.not_eq_true _ ▸ hp
      have h1 : statOk (emit { w with errno := 0 } (Event.mkdir p m)) p = false := h
      have h2 : isDirectory (emit { w with errno := 0 } (Event.mkdir p m)) (parentOf p) = false := hp
      by_cases hf : (emit { w with errno := 0 } (Event.mkdir p m)).files.contains (parentOf p) = true
      · simp only [mkdirv, sysMkdir, h1, h2, hf, if_true, Bool.false_eq_true, if_false]
        refine ⟨rfl, rfl, rfl, ⟨[Event.warn "mkdir"], ?_, by simp⟩, fun d hd => hd⟩
        simp [warn, emit, ENOTDIR, EEXIST]
      · simp only [mkdirv, sysMkdir, h1, h2, hf, if_true, Bool.false_eq_true, if_false]
        refine ⟨rfl, rfl, rfl, ⟨[Event.warn "mkdir"], ?_, by simp⟩, fun d hd => hd⟩
        simp [warn, emit, ENOENT, EEXIST]

theorem isDirectory_iff (w : World) (p : String) :
    isDirectory w p = true ↔ p = "" ∨ p = "/" ∨ p ∈ w.dirs := by
  simp [isDirectory, or_assoc]

theorem statOk_iff (w : World) (p : String) :
    statOk w p = true ↔ p = "/" ∨ p ∈ w.dirs ∨ p ∈ w.files := by
  simp [statOk, or_assoc]

theorem dropWhile_append_all (p : Char → Bool) (a b : List Char) (h : ∀ c ∈ a, p c = true) :
    (a ++ b).dropWhile p = b.dropWhile p := by
  induction a with
  | nil => rfl
  | cons x xs ih =>
    have hx : p x = true := h x (List.mem_cons_self _ _)
    simp [List.dropWhile, hx, ih (fun c hc => h c (List.mem_cons_of_mem _ hc))]

theorem parentOf_extend (done c : List Char) (h : ∀ ch ∈ c, ch ≠ '/') :
    parentOf (String.mk (done ++ '/' :: c)) = if done = [] then "/" else String.mk done := by
  unfold parentOf
  have hrev : (done ++ '/' :: c).reverse = c.reverse ++ '/' :: done.reverse := by simp
  have hdrop : (c.reverse ++ '/' :: done.reverse).dropWhile (fun ch => ch != '/')
      = '/' :: done.reverse := by
    rw [dropWhile_append_all _ _ _ (fun ch hch => by simpa using h ch (List.mem_reverse.mp hch))]
    simp [List.dropWhile]
  simp only [hrev, hdrop]
  cases hd : done.reverse with
  | nil =>
    have : done = [] := by simpa using hd
    simp [this]
  | cons x xs =>
    have hne : done ≠ [] := by
      intro h0; rw [h0] at hd; cases hd
    have hx : done = (x :: xs).reverse := by rw [← hd, List.reverse_reverse]
    simp [hne, hx]

theorem mkdirCalls_append (a b : List Event) :
    mkdirCalls (a ++ b) = mkdirCalls a ++ mkdirCalls b := by
  induction a with
  | nil => rfl
  | cons e es ih => cases e <;> simp [mkdirCalls, ih]

theorem mkdirCalls_warns (l : List Event) (h : ∀ e ∈ l, e = Event.warn "mkdir") :
    mkdirCalls l = [] := by
  induction l with
  | nil => rfl
  | cons e es ih =>
    rw [h e (List.mem_cons_self _ _)]
    simpa [mkdirCalls] using ih (fun x hx => h x (List.mem_cons_of_mem _ hx))

theorem mkdirCalls_mkdirv (w : World) (p : String) (m : Nat) :
    mkdirCalls (mkdirv w p m).trace = mkdirCalls w.trace ++ [p] := by
  obtain ⟨_, _, _, ⟨l, hl, hw⟩, _⟩ := mkdirv_frame w p m
  rw [hl, mkdirCalls_append]
  simp [mkdirCalls, mkdirCalls_warns l hw]

theorem mkdirCalls_fold (L : List String) (w : World) :
    mkdirCalls (L.foldl (fun w q => mkdirv w q 511) w).trace = mkdirCalls w.trace ++ L := by
  induction L generalizing w with
  | nil => simp
  | cons q qs ih => rw [List.foldl_cons, ih, mkdirCalls_mkdirv]; simp

/-- Creating directories that all exist changes nothing but `errno` and the trace. -/
theorem fold_mkdirv_exists (L : List String) (w : World) (h : ∀ q ∈ L, statOk w q = true) :
    (L.foldl (fun w q => mkdirv w q 511) w).dirs = w.dirs
      ∧ (L.foldl (fun w q => mkdirv w q 511) w).files = w.files
      ∧ (L.foldl (fun w q => mkdirv w q 511) w).trace
          = w.trace ++ L.map (fun q => Event.mkdir q 511) := by
  induction L generalizing w with
  | nil => simp
  | cons q qs ih =>
    have hq := h q (List.mem_cons_self _ _)
    rw [List.foldl_cons, mkdirv_exists w q 511 hq]
    have := ih { w with errno := EEXIST, trace := w.trace ++ [Event.mkdir q 511] }
      (fun x hx => h x (List.mem_cons_of_mem _ hx))
    simpa using this

/-- Creating the prefixes top-down makes each of them a directory, provided
none of them is taken by something that is not a directory. -/
theorem fold_mkdirv_chain (cs : List (List Char)) (h : ∀ c ∈ cs, ∀ ch ∈ c, ch ≠ '/')
    (done : List Char) (w : World)
    (hd : done = [] ∨ isDirectory w (String.mk done) = true)
    (hf : ∀ q ∈ prefixChars done cs, String.mk q ∉ w.files) :
    (∀ q ∈ prefixChars done cs,
        isDirectory (((prefixChars done cs).map String.mk).foldl
          (fun w q => mkdirv w q 511) w) (String.mk q) = true)
      ∧ (((prefixChars done cs).map String.mk).foldl (fun w q => mkdirv w q 511) w).files
          = w.files
      ∧ (∀ d ∈ w.dirs, d ∈ (((prefixChars done cs).map String.mk).foldl
          (fun w q => mkdirv w q 511) w).dirs) := by
  induction cs generalizing done w with
  | nil => exact ⟨fun q hq => (by cases hq), rfl, fun d hd => hd⟩
  | cons c cs ih =>
    have hc := h c (List.mem_cons_self _ _)
    have hparent : isDirectory w (parentOf (String.mk (done ++ '/' :: c))) = true := by
      rw [parentOf_extend done c hc]
      rcases hd with h0 | h0
      · simp [h0, isDirectory]
      · by_cases hn : done = []
        · simp [hn, isDirectory]
        · simpa [hn] using h0
    have hfile : String.mk (done ++ '/' :: c) ∉ w.files :=
      hf _ (List.mem_cons_self _ _)
    obtain ⟨hfiles, _, _, _, hmono⟩ := mkdirv_frame w (String.mk (done ++ '/' :: c)) 511
    have hdir1 : isDirectory (mkdirv w (String.mk (done ++ '/' :: c)) 511)
        (String.mk (done ++ '/' :: c)) = true := by
      by_cases hs : statOk w (String.mk (done ++ '/' :: c)) = true
      · rw [mkdirv_exists w _ 511 hs, isDirectory_iff]
        rcases (statOk_iff _ _).mp hs with h1 | h1 | h1
        · exact Or.inr (Or.inl h1)
        · exact Or.inr (Or.inr h1)
        · exact absurd h1 hfile
      · have hs := Bool.not_eq_true _ ▸ hs
        rw [mkdirv_creates w _ 511 hs hparent, isDirectory_iff]
        exact Or.inr (Or.inr (by simp))
    obtain ⟨ih1, ih2, ih3⟩ := ih (fun x hx => h x (List.mem_cons_of_mem _ hx))
      (done ++ '/' :: c) (mkdirv w (String.mk (done ++ '/' :: c)) 511) (Or.inr hdir1)
      (fun q hq => by rw [hfiles]; exact hf q (List.mem_cons_of_mem _ hq))
    simp only [prefixChars, List.map_cons, List.foldl_cons]
    refine ⟨?_, by rw [ih2, hfiles], fun d hd => ih3 d (hmono d hd)⟩
    intro q hq
    rcases List.mem_cons.mp hq with h1 | h1
    · rw [h1, isDirectory_iff]
      rcases (isDirectory_iff _ _).mp hdir1 with h2 | h2 | h2
      · exact Or.inl h2
      · exact Or.inr (Or.inl h2)
      · exact Or.inr (Or.inr (ih3 _ h2))
    · exact ih1 q h1

theorem nil_not_mem_prefixChars (cs : List (List Char)) (done : List Char) :
    [] ∉ prefixChars done cs := by
  induction cs generalizing done with
  | nil => simp [prefixChars]
  | cons c cs ih =>
    simp only [prefixChars, List.mem_cons, not_or]
    exact ⟨by simp, ih _⟩

/-- C9: on an absolute path `/c1/.../cn`, `mkdirp` calls `mkdir` on `/c1`,
`/c1/c2`, ..., the whole path, in this order and in every world (whatever the
earlier calls returned).  When none of these prefixes is taken by something
that is not a directory, each of them is a directory afterwards, and a second
`mkdirp` on the same path leaves directories and files as they are and adds
only the `mkdir` calls to the trace, no warning. -/
theorem mkdirp_prefixes_idempotent (w : World) (comps : List String)
    (h : ∀ c ∈ comps, IsComponent c) :
    mkdirCalls (mkdirp w (absPath comps)).trace = mkdirCalls w.trace ++ pathPrefixes comps
      ∧ ((∀ q ∈ pathPrefixes comps, q ∉ w.files) →
          (∀ q ∈ pathPrefixes comps, isDirectory (mkdirp w (absPath comps)) q = true)
            ∧ (mkdirp (mkdirp w (absPath comps)) (absPath comps)).dirs
                = (mkdirp w (absPath comps)).dirs
            ∧ (mkdirp (mkdirp w (absPath comps)) (absPath comps)).files
                = (mkdirp w (absPath comps)).files
            ∧ (mkdirp (mkdirp w (absPath comps)) (absPath comps)).trace
                = (mkdirp w (absPath comps)).trace
                    ++ (pathPrefixes comps).map (fun q => Event.mkdir q 511)) := by
  have hcs : ∀ c ∈ comps.map String.data, ∀ ch ∈ c, ch ≠ '/' := by
    intro c hc
    obtain ⟨s, hs, rfl⟩ := List.mem_map.mp hc
    exact fun ch hch => (h s hs ch hch).1
  rw [mkdirp_absPath w comps h, mkdirp_absPath _ comps h]
  refine ⟨mkdirCalls_fold _ w, fun hf => ?_⟩
  obtain ⟨c1, c2, _⟩ := fold_mkdirv_chain (comps.map String.data) hcs [] w (Or.inl rfl)
    (fun q hq => hf _ (List.mem_map_of_mem _ hq))
  have hdirs : ∀ q ∈ pathPrefixes comps,
      isDirectory ((pathPrefixes comps).foldl (fun w q => mkdirv w q 511) w) q = true := by
    intro q hq
    obtain ⟨x, hx, rfl⟩ := List.mem_map.mp hq
    exact c1 x hx
  have hstat : ∀ q ∈ pathPrefixes comps,
      statOk ((pathPrefixes comps).foldl (fun w q => mkdirv w q 511) w) q = true := by
    intro q hq
    rw [statOk_iff]
    rcases (isDirectory_iff _ _).mp (hdirs q hq) with h1 | h1 | h1
    · exfalso
      obtain ⟨x, hx, hxq⟩ := List.mem_map.mp hq
      rw [h1] at hxq
      have : x = [] := by simpa using congrArg String.data hxq
      rw [this] at hx
      exact nil_not_mem_prefixChars _ _ hx
    · exact Or.inl h1
    · exact Or.inr (Or.inl h1)
  obtain ⟨e1, e2, e3⟩ := fold_mkdirv_exists (pathPrefixes comps) _ hstat
  exact ⟨hdirs, e1, e2, e3⟩

theorem bindCalls_append (a b : List Event) : bindCalls (a ++ b) = bindCalls a ++ bindCalls b := by
  induction a with
  | nil => rfl
  | cons e es ih =>
    cases e with
    | mount s t ty fl => cases s <;> simp [bindCalls, ih]
    | _ => simp [bindCalls, ih]

theorem umountTargets_append (a b : List Event) :
    umountTargets (a ++ b) = umountTargets a ++ umountTargets b := by
  induction a with
  | nil => rfl
  | cons e es ih => cases e <;> simp [umountTargets, ih]

theorem Ext.refl (w : World) : Ext w w [] [] := ⟨[], by simp, rfl, rfl⟩

theorem Ext.trans {w w1 w2 : World} {a c : List (Option String × Nat)}
    {b d : List (Option String)} (h1 : Ext w w1 a b) (h2 : Ext w1 w2 c d) :
    Ext w w2 (a ++ c) (b ++ d) := by
  obtain ⟨l1, t1, b1, u1⟩ := h1
  obtain ⟨l2, t2, b2, u2⟩ := h2
  exact ⟨l1 ++ l2, by rw [t2, t1, List.append_assoc], by rw [bindCalls_append, b1, b2],
    by rw [umountTargets_append, u1, u2]⟩

theorem Ext.quiet {w w1 w2 : World} {a : List (Option String × Nat)} {b : List (Option String)}
    (h1 : Ext w w1 [] []) (h2 : Ext w1 w2 a b) : Ext w w2 a b := by
  simpa using Ext.trans h1 h2

theorem Ext.then_quiet {w w1 w2 : World} {a : List (Option String × Nat)}
    {b : List (Option String)} (h1 : Ext w w1 a b) (h2 : Ext w1 w2 [] []) : Ext w w2 a b := by
  simpa using Ext.trans h1 h2

theorem Ext.emit (w : World) (e : Event) (h : bindCalls [e] = []) (hu : umountTargets [e] = []) :
    Ext w (emit w e) [] [] := ⟨[e], rfl, h, hu⟩

theorem bindCalls_warns (l : List Event) (msg : String) (h : ∀ e ∈ l, e = Event.warn msg) :
    bindCalls l = [] := by
  induction l with
  | nil => rfl
  | cons e es ih =>
    rw [h e (List.mem_cons_self _ _)]
    simpa [bindCalls] using ih (fun x hx => h x (List.mem_cons_of_mem _ hx))

theorem umountTargets_warns (l : List Event) (msg : String) (h : ∀ e ∈ l, e = Event.warn msg) :
    umountTargets l = [] := by
  induction l with
  | nil => rfl
  | cons e es ih =>
    rw [h e (List.mem_cons_self _ _)]
    simpa [umountTargets] using ih (fun x hx => h x (List.mem_cons_of_mem _ hx))

theorem mkdirv_ext (w : World) (p : String) (m : Nat) : Ext w (mkdirv w p m) [] [] := by
  obtain ⟨_, _, _, ⟨l, hl, hw⟩, _⟩ := mkdirv_frame w p m
  exact ⟨_, hl, by simpa [bindCalls] using bindCalls_warns l _ hw,
    by simpa [umountTargets] using umountTargets_warns l _ hw⟩

theorem mkdirpLoop_ext (rest : List Char) (i : Nat) (copy : List Char) (w : World) :
    Ext w (mkdirpLoop rest i copy w) [] [] := by
  induction rest generalizing i copy w with
  | nil => exact Ext.refl w
  | cons ch rest ih =>
    rw [mkdirpLoop]
    split
    · exact ih _ _ _
    · exact Ext.quiet (mkdirv_ext _ _ _) (ih _ _ _)

theorem mkdirp_ext (w : World) (p : String) : Ext w (mkdirp w p) [] [] := by
  unfold mkdirp
  simp only []
  split
  · exact Ext.quiet (mkdirv_ext _ _ _) (mkdirpLoop_ext _ _ _ _)
  · exact mkdirpLoop_ext _ _ _ _

theorem mount_bind_skip (path : Paths) (w : World) (mnt : Mount)
    (h : ∀ s, mnt.source = some s → statOk w s = false) :
    mount_bind path w mnt = Result.ok mnt w := by
  unfold mount_bind
  cases hs : mnt.source with
  | none => simp
  | some s => simp [h s hs]

/-- What `mount_bind` does when the source exists. -/
theorem mount_bind_present (path : Paths) (w : World) (mnt : Mount) (s : String)
    (hs : mnt.source = some s) (h : statOk w s = true) :
    mount_bind path w mnt
      = if (mkdirp w (mnt.target.getD (path.root ++ s))).mountFails.contains
            (mnt.target.getD (path.root ++ s))
        then Result.exit EXIT_FAILURE
          (emit (mkdirp w (mnt.target.getD (path.root ++ s)))
            (Event.mount (some s) (some (mnt.target.getD (path.root ++ s)))
              (some (mnt.type.getD "")) ((MS_BIND ||| MS_RDONLY) &&& ulongNot mnt.flags)))
        else Result.ok
          { source := some s, type := some (mnt.type.getD ""),
            target := some (mnt.target.getD (path.root ++ s)), flags := mnt.flags,
            mounted := true }
          (emit (mkdirp w (mnt.target.getD (path.root ++ s)))
            (Event.mount (some s) (some (mnt.target.getD (path.root ++ s)))
              (some (mnt.type.getD "")) ((MS_BIND ||| MS_RDONLY) &&& ulongNot mnt.flags))) := by
  obtain ⟨src, ty, tgt, fl, md⟩ := mnt
  simp only at hs
  subst hs
  unfold mount_bind
  cases tgt <;> cases ty <;>
    simp [h, sysMount, emit] <;> split <;> simp

/-- C5: `mount_bind` on an entry whose source does not exist returns the entry
and the world as they were: no event is added to the trace (no `mkdir`, no
`mount`), no member of the entry changes, and an entry that is not mounted
stays so. -/
theorem mount_bind_absent_source (path : Paths) (w : World) (mnt : Mount)
    (h : ∀ s, mnt.source = some s → statOk w s = false) :
    mount_bind path w mnt = Result.ok mnt w
      ∧ (mount_bind path w mnt).world.trace = w.trace
      ∧ (∀ m1 w1, mount_bind path w mnt = Result.ok m1 w1 →
          m1 = mnt ∧ w1 = w ∧ (mnt.mounted = false → m1.mounted = false)) := by
  rw [mount_bind_skip path w mnt h]
  refine ⟨rfl, rfl, ?_⟩
  intro m1 w1 h1
  injection h1 with h2 h3
  exact ⟨h2.symm, h3.symm, fun hm => by rw [← h2]; exact hm⟩

theorem mount_bind_ext (path : Paths) (w : World) (m : Mount) (hm : m.mounted = false) :
    ∃ bc, Ext w (mount_bind path w m).world bc []
      ∧ (∀ x ∈ bc, x.2 = (MS_BIND ||| MS_RDONLY) &&& ulongNot m.flags)
      ∧ (∀ m1 w1, mount_bind path w m = Result.ok m1 w1 →
          bc.map Prod.fst = mountedTargets [m1]) := by
  by_cases hex : ∃ s, m.source = some s ∧ statOk w s = true
  · obtain ⟨s, hs, hst⟩ := hex
    refine ⟨[(some (m.target.getD (path.root ++ s)),
      (MS_BIND ||| MS_RDONLY) &&& ulongNot m.flags)], ?_, by simp, ?_⟩
    · rw [mount_bind_present path w m s hs hst]
      have hq := mkdirp_ext w (m.target.getD (path.root ++ s))
      split <;> exact Ext.quiet hq ⟨_, rfl, rfl, rfl⟩
    · intro m1 w1 h1
      rw [mount_bind_present path w m s hs hst] at h1
      split at h1
      · cases h1
      · injection h1 with h2 h3
        rw [← h2]
        simp [mountedTargets]
  · have hskip : ∀ s, m.source = some s → statOk w s = false := by
      intro s hs
      by_contra hc
      exact hex ⟨s, hs, by simpa using hc⟩
    rw [mount_bind_skip path w m hskip]
    refine ⟨[], Ext.refl w, by simp, ?_⟩
    intro m1 w1 h1
    injection h1 with h2 h3
    rw [← h2]
    simp [mountedTargets, hm]

theorem mountedTargets_cons (m : Mount) (ms : List Mount) :
    mountedTargets (m :: ms) = mountedTargets [m] ++ mountedTargets ms := by
  unfold mountedTargets
  by_cases h : m.mounted = true <;> simp [List.filter, h]

theorem bindAll_ext (path : Paths) (ms : List Mount) (w : World)
    (hms : ∀ m ∈ ms, m.mounted = false ∧ m.flags = 0) :
    ∃ bc, Ext w (bindAll path ms w).world bc []
      ∧ (∀ x ∈ bc, x.2 = MS_BIND ||| MS_RDONLY)
      ∧ (∀ tbl w1, bindAll path ms w = Result.ok tbl w1 →
          bc.map Prod.fst = mountedTargets tbl) := by
  induction ms generalizing w with
  | nil =>
    refine ⟨[], Ext.refl w, by simp, ?_⟩
    intro tbl w1 h
    injection h with h1 h2
    rw [← h1]; rfl
  | cons m ms ih =>
    obtain ⟨hm, hfl⟩ := hms m (List.mem_cons_self _ _)
    obtain ⟨bc1, e1, f1, t1⟩ := mount_bind_ext path w m hm
    rw [bindAll]
    cases hb : mount_bind path w m with
    | exit c w1 =>
      rw [hb] at e1
      refine ⟨bc1, e1, ?_, ?_⟩
      · intro x hx; rw [f1 x hx, hfl]; decide
      · intro tbl w2 h; cases h
    | ok m1 w1 =>
      rw [hb] at e1
      obtain ⟨bc2, e2, f2, t2⟩ := ih w1 (fun x hx => hms x (List.mem_cons_of_mem _ hx))
      have e12 : Ext w (bindAll path ms w1).world (bc1 ++ bc2) [] := by
        simpa using Ext.trans e1 e2
      have hfl12 : ∀ x ∈ bc1 ++ bc2, x.2 = MS_BIND ||| MS_RDONLY := by
        intro x hx
        rcases List.mem_append.mp hx with h1 | h1
        · rw [f1 x h1, hfl]; decide
        · exact f2 x h1
      dsimp only
      cases hb2 : bindAll path ms w1 with
      | exit c w2 =>
        rw [hb2] at e12
        dsimp only
        exact ⟨bc1 ++ bc2, e12, hfl12, fun tbl w3 h => by cases h⟩
      | ok tbl2 w2 =>
        rw [hb2] at e12
        dsimp only
        refine ⟨bc1 ++ bc2, e12, hfl12, ?_⟩
        intro tbl w3 h
        injection h with h1 h2
        rw [← h1, mountedTargets_cons, List.map_append, t1 m1 w1 hb, t2 tbl2 w2 hb2]

theorem mount_eject_ext (w : World) (m : Mount) :
    Ext w (mount_eject w m).1 [] (mountedTargets [m]) := by
  unfold mount_eject
  by_cases h : m.mounted = true
  · simp only [h, if_true, sysUmount_fst]
    have h1 : Ext w (emit w (Event.umount m.target)) [] [m.target] := ⟨_, rfl, rfl, rfl⟩
    have h2 : mountedTargets [m] = [m.target] := by simp [mountedTargets, h]
    rw [h2]
    split
    · exact Ext.then_quiet h1 ⟨_, rfl, rfl, rfl⟩
    · exact h1
  · have h2 : mountedTargets [m] = [] := by simp [mountedTargets, h]
    simp only [h, if_false, Bool.false_eq_true, h2]
    exact Ext.refl w

theorem ejectAll_ext (ms : List Mount) (w : World) :
    Ext w (ejectAll ms w).1 [] (mountedTargets ms).reverse := by
  induction ms with
  | nil => exact Ext.refl w
  | cons m ms ih =>
    rw [ejectAll, mountedTargets_cons, List.reverse_append]
    have h := Ext.trans ih (mount_eject_ext (ejectAll ms w).1 m)
    have hrev : (mountedTargets [m]).reverse = mountedTargets [m] := by
      unfold mountedTargets
      by_cases hm : m.mounted = true <;> simp [hm]
    rw [hrev]
    simpa using h

theorem runWalk_ext (fn : World × Tree → Visit → (World × Tree) × Int)
    (hfn : ∀ s v, Ext s.1 (fn s v).1.1 [] []) (vs : List Visit) (s : World × Tree) :
    Ext s.1 (runWalk fn vs s).1.1 [] [] := by
  induction vs generalizing s with
  | nil => exact Ext.refl _
  | cons v vs ih =>
    rw [runWalk]
    split
    · exact hfn s v
    · exact Ext.quiet (hfn s v) (ih _)

theorem walk_remove_ext (s : World × Tree) (v : Visit) : Ext s.1 (walk_remove s v).1.1 [] [] := by
  unfold walk_remove
  split
  · have h1 : Ext s.1 (sysRmdir s v).1.1 [] [] := by
      unfold sysRmdir
      dsimp only
      split
      · exact ⟨_, rfl, rfl, rfl⟩
      · split <;> exact ⟨_, rfl, rfl, rfl⟩
    dsimp only
    split
    · exact Ext.quiet h1 ⟨_, rfl, rfl, rfl⟩
    · exact h1
  · exact Ext.refl _

theorem nftw_ext (fn : World × Tree → Visit → (World × Tree) × Int)
    (hfn : ∀ s v, Ext s.1 (fn s v).1.1 [] []) (t : Tree) (path : String) (flags : Nat)
    (s : World × Tree) : Ext s.1 (nftw t path fn flags s).1.1 [] [] := by
  unfold nftw
  split
  · exact Ext.refl _
  · exact runWalk_ext fn hfn _ s

theorem cleanup_ext (s : World × Tree) (path : String) : Ext s.1 (cleanup s path).1.1 [] [] := by
  unfold cleanup
  split
  · exact Ext.refl _
  · exact nftw_ext _ walk_remove_ext _ _ _ _

theorem waitLoop_ext (ws : List WaitOutcome) (w : World) (st : Nat) (r : World × Nat)
    (h : waitLoop ws w st = some r) : Ext w r.1 [] [] := by
  induction ws generalizing w st with
  | nil => cases h
  | cons o os ih =>
    cases o with
    | reaped p s =>
      rw [waitLoop] at h
      have h0 : Ext w (emit { w with errno := 0 } Event.wait) [] [] := ⟨_, rfl, rfl, rfl⟩
      exact Ext.quiet h0 (ih _ _ h)
    | failed en =>
      rw [waitLoop] at h
      simp only [] at h
      have h0 : Ext w { emit { w with errno := 0 } Event.wait with errno := en } [] [] :=
        ⟨_, rfl, rfl, rfl⟩
      split at h
      · exact Ext.quiet h0 (ih _ _ h)
      · split at h
        · injection h with h1
          rw [← h1]
          exact Ext.quiet h0 ⟨_, rfl, rfl, rfl⟩
        · injection h with h1
          rw [← h1]
          exact h0

theorem child_ext (e : Env) (path : Paths) (user : User) (w : World) :
    Ext w (child e path user w).2 [] [] := by
  unfold child Ext
  by_cases h1 : e.chrootRet = 0 <;> by_cases h2 : e.chdirRet = 0 <;>
    by_cases h3 : e.setgidRet = 0 <;> by_cases h4 : e.setuidRet = 0 <;>
    by_cases h5 : e.setuidZeroRet = 0 <;> by_cases h6 : e.execlFails = true <;>
    simp [h1, h2, h3, h4, h5, h6, emit, bindCalls, umountTargets]

theorem teardown_ext (e : Env) (path : Paths) (tbl : List Mount) (hm : Mount) (status : Nat)
    (w : World) :
    Ext w (teardown e path tbl hm status w).2 []
      (mountedTargets tbl ++ mountedTargets [hm]).reverse := by
  have h1 := mount_eject_ext w hm
  have h2 := ejectAll_ext tbl (mount_eject w hm).1
  have h3 := cleanup_ext ((ejectAll tbl (mount_eject w hm).1).1, e.atExit) path.root
  have h123 := Ext.then_quiet (Ext.trans h1 h2) h3
  have hrev : (mountedTargets [hm]).reverse = mountedTargets [hm] := by
    unfold mountedTargets
    by_cases hmm : hm.mounted = true <;> simp [hmm]
  rw [List.reverse_append, hrev]
  unfold teardown
  dsimp only
  split
  · exact Ext.then_quiet (by simpa using h123) ⟨_, rfl, rfl, rfl⟩
  · simpa using h123

theorem mainFork_ext (e : Env) (path : Paths) (user : User) (tbl : List Mount) (hm : Mount)
    (w : World) :
    ∃ ut, Ext w (mainFork e path user tbl hm w).2 [] ut
      ∧ (∀ code, (mainFork e path user tbl hm w).1 = Final.returned code →
          ut = (mountedTargets tbl ++ mountedTargets [hm]).reverse) := by
  have hf : Ext w (emit w Event.fork) [] [] := ⟨_, rfl, rfl, rfl⟩
  unfold mainFork
  dsimp only
  split
  · exact ⟨[], hf, fun code h => by cases h⟩
  split
  · refine ⟨[], Ext.quiet hf (child_ext _ _ _ _), fun code h => ?_⟩
    rcases child_final e path user (emit w Event.fork) with h1 | h1 <;> rw [h1] at h <;> cases h
  split
  · exact ⟨[], hf, fun code h => by cases h⟩
  · rename_i r hr
    exact ⟨_, Ext.quiet (Ext.quiet hf (waitLoop_ext _ _ _ _ hr)) (teardown_ext _ _ _ _ _ _),
      fun _ _ => rfl⟩

theorem mounts_fresh : ∀ m ∈ mounts, m.mounted = false ∧ m.flags = 0 := by
  intro m hm
  simp only [mounts, List.mem_cons, List.mem_singleton, List.not_mem_nil, or_false] at hm
  rcases hm with h | h | h | h | h | h | h | h | h | h | h <;> rw [h] <;> exact ⟨rfl, rfl⟩

theorem flags_zero : (MS_BIND ||| MS_RDONLY) &&& ulongNot 0 = MS_BIND ||| MS_RDONLY := by
  decide

theorem mainSetup_ext (e : Env) (argv : List String) (path : Paths) (user : User) (w : World) :
    ∃ bc ut, Ext w (mainSetup e argv path user w).2 bc ut
      ∧ (∀ x ∈ bc, x.2 = MS_BIND ||| MS_RDONLY)
      ∧ (∀ code, (mainSetup e argv path user w).1 = Final.returned code →
          ut = (bc.map Prod.fst).reverse) := by
  have hq : Ext w (mkdirp (mkdirp w path.root) path.home) [] [] :=
    Ext.quiet (mkdirp_ext _ _) (mkdirp_ext _ _)
  obtain ⟨bc1, e1, f1, t1⟩ := bindAll_ext path mounts (mkdirp (mkdirp w path.root) path.home)
    mounts_fresh
  unfold mainSetup
  dsimp only
  cases hb : bindAll path mounts (mkdirp (mkdirp w path.root) path.home) with
  | exit c w2 =>
    rw [hb] at e1
    exact ⟨bc1, [], Ext.quiet hq e1, f1, fun code h => by cases h⟩
  | ok tbl w2 =>
    rw [hb] at e1
    have ht := t1 tbl w2 hb
    dsimp only
    split
    · obtain ⟨bc2, e2, f2, t2⟩ := mount_bind_ext path w2
        { home with source := argv.get? 1, target := some path.home } rfl
      cases hh : mount_bind path w2 { home with source := argv.get? 1, target := some path.home } with
      | exit c w3 =>
        rw [hh] at e2
        refine ⟨bc1 ++ bc2, [], by simpa using Ext.trans (Ext.quiet hq e1) e2, ?_,
          fun code h => by cases h⟩
        intro x hx
        rcases List.mem_append.mp hx with h1 | h1
        · exact f1 x h1
        · rw [f2 x h1]; exact flags_zero
      | ok hm w3 =>
        rw [hh] at e2
        obtain ⟨ut, e3, t3⟩ := mainFork_ext e path user tbl hm w3
        dsimp only
        refine ⟨bc1 ++ bc2, ut,
          by simpa using Ext.trans (Ext.trans (Ext.quiet hq e1) e2) e3, ?_, ?_⟩
        · intro x hx
          rcases List.mem_append.mp hx with h1 | h1
          · exact f1 x h1
          · rw [f2 x h1]; exact flags_zero
        · intro code hc
          rw [t3 code hc, List.map_append, ht, t2 hm w3 hh]
    · obtain ⟨ut, e3, t3⟩ := mainFork_ext e path user tbl home w2
      refine ⟨bc1, ut, by simpa using Ext.trans (Ext.quiet hq e1) e3, f1, ?_⟩
      intro code hc
      rw [t3 code hc, ht]
      simp [mountedTargets, home]

/-- The trace of `main`: every bind mount has the flags `MS_BIND | MS_RDONLY`,
and when `main` returns the `umount` targets are the targets of the bind
mounts in reverse. -/
theorem main_ext (e : Env) (argv : List String) (w : World) :
    ∃ bc ut, Ext w (main e argv w).2 bc ut
      ∧ (∀ x ∈ bc, x.2 = MS_BIND ||| MS_RDONLY)
      ∧ (∀ code, (main e argv w).1 = Final.returned code → ut = (bc.map Prod.fst).reverse) := by
  have h1 : Ext w (emit w (Event.unshare CLONE_NEWNS)) [] [] := ⟨_, rfl, rfl, rfl⟩
  have h2 : Ext w (sysMount (emit w (Event.unshare CLONE_NEWNS)) none (some "/") (some "")
      (MS_PRIVATE ||| MS_REC)).1 [] [] := by
    rw [sysMount_fst]
    exact Ext.quiet h1 ⟨_, rfl, rfl, rfl⟩
  unfold main
  dsimp only
  split
  · exact ⟨[], [], h1, by simp, fun code h => by cases h⟩
  split
  · exact ⟨[], [], h2, by simp, fun code h => by cases h⟩
  split
  · exact ⟨[], [], h2, by simp, fun code h => by cases h⟩
  split
  · exact ⟨[], [], h2, by simp, fun code h => by cases h⟩
  split
  · exact ⟨[], [], h2, by simp, fun code h => by cases h⟩
  · obtain ⟨bc, ut, e3, f3, t3⟩ := mainSetup_ext e argv _ _ _
    exact ⟨bc, ut, Ext.quiet h2 e3, f3, t3⟩

theorem testBit_default_flags (i : Nat) (h : (MS_BIND ||| MS_RDONLY).testBit i = true) :
    i = 0 ∨ i = 12 := by
  by_cases hi : i < 13
  · interval_cases i <;> first | (left; rfl) | (right; rfl) | (exfalso; revert h; decide)
  · exfalso
    have hlt : MS_BIND ||| MS_RDONLY < 2 ^ i :=
      Nat.lt_of_lt_of_le (show MS_BIND ||| MS_RDONLY < 2 ^ 13 by decide)
        (Nat.pow_le_pow_right (by decide) (by omega))
    rw [Nat.testBit_lt_two_pow hlt] at h
    cases h

/-- C3: whenever `main` returns, the targets it handed to `umount` are the
targets `mount_bind` handed to `mount`, in reverse order; and the teardown
ejects `home` first and then the table from its last entry to its first. -/
theorem teardown_reverses_setup (e : Env) (argv : List String) (w : World) (code : Nat)
    (h : (main e argv w).1 = Final.returned code) :
    (∃ l, (main e argv w).2.trace = w.trace ++ l
        ∧ umountTargets l = (mountTargets l).reverse)
      ∧ (∀ path tbl hm status w0, ∃ l, (teardown e path tbl hm status w0).2.trace = w0.trace ++ l
          ∧ umountTargets l = mountedTargets [hm] ++ (mountedTargets tbl).reverse) := by
  constructor
  · obtain ⟨bc, ut, ⟨l, hl, hb, hu⟩, _, ht⟩ := main_ext e argv w
    exact ⟨l, hl, by rw [hu, ht code h, mountTargets, hb]⟩
  · intro path tbl hm status w0
    obtain ⟨l, hl, _, hu⟩ := teardown_ext e path tbl hm status w0
    refine ⟨l, hl, ?_⟩
    rw [hu, List.reverse_append]
    congr 1
    unfold mountedTargets
    by_cases hmm : hm.mounted = true <;> simp [hmm]

/-- C7: `mount_bind` on an existing source issues exactly one `mount`, with the
flags `(MS_BIND | MS_RDONLY) & ~flags`; these flags have no bit other than
bit 0 (`MS_RDONLY`) and bit 12 (`MS_BIND`); for every entry of the table and
for `home` the flags member is 0 and the flags passed are `MS_BIND | MS_RDONLY`;
and every bind mount in a run of `main` is made with `MS_BIND | MS_RDONLY`. -/
theorem mount_flags_readonly_bind :
    (∀ (path : Paths) (w : World) (mnt : Mount) (s : String),
        mnt.source = some s → statOk w s = true →
        ∃ l, (mount_bind path w mnt).world.trace = w.trace ++ l
          ∧ bindCalls l = [(some (mnt.target.getD (path.root ++ s)),
              (MS_BIND ||| MS_RDONLY) &&& ulongNot mnt.flags)])
      ∧ (∀ flags i : Nat, ((MS_BIND ||| MS_RDONLY) &&& ulongNot flags).testBit i = true →
          i = 0 ∨ i = 12)
      ∧ (∀ m ∈ home :: mounts, m.flags = 0
          ∧ (MS_BIND ||| MS_RDONLY) &&& ulongNot m.flags = MS_BIND ||| MS_RDONLY)
      ∧ (∀ (e : Env) (argv : List String) (w : World),
          ∃ l, (main e argv w).2.trace = w.trace ++ l
            ∧ ∀ x ∈ bindCalls l, x.2 = MS_BIND ||| MS_RDONLY) := by
  refine ⟨?_, ?_, ?_, ?_⟩
  · intro path w mnt s hs hst
    rw [mount_bind_present path w mnt s hs hst]
    obtain ⟨l, hl, hb, _⟩ := mkdirp_ext w (mnt.target.getD (path.root ++ s))
    refine ⟨l ++ [Event.mount (some s) (some (mnt.target.getD (path.root ++ s)))
      (some (mnt.type.getD "")) ((MS_BIND ||| MS_RDONLY) &&& ulongNot mnt.flags)], ?_, ?_⟩
    · split <;> simp [Result.world, emit, hl]
    · rw [bindCalls_append, hb]; rfl
  · intro flags i hi
    rw [Nat.testBit_and] at hi
    exact testBit_default_flags i (Bool.and_eq_true _ _ ▸ hi).1
  · intro m hm
    rcases List.mem_cons.mp hm with h | h
    · rw [h]; exact ⟨rfl, flags_zero⟩
    · have := (mounts_fresh m h).2
      exact ⟨this, by rw [this]; exact flags_zero⟩
  · intro e argv w
    obtain ⟨bc, ut, ⟨l, hl, hb, _⟩, hf, _⟩ := main_ext e argv w
    exact ⟨l, hl, by rw [hb]; exact hf⟩

/-- The test `walk_check` makes on one visit. -/
theorem walk_check_run (vs : List Visit) (s : World × Tree) :
    runWalk walk_check vs s
      = (s, if vs.any (fun v => decide (v.level > 2) || v.type != FTW_D) then 1 else 0) := by
  induction vs with
  | nil => rfl
  | cons v vs ih =>
    rw [runWalk, List.any_cons]
    by_cases hv : (decide (v.level > 2) || v.type != FTW_D) = true
    · simp [walk_check, hv]
    · have hv := Bool.not_eq_true _ ▸ hv
      simp only [walk_check, hv, Bool.false_eq_true, if_false, bne_self_eq_false, Bool.false_or]
      exact ih

theorem kind_flag_ne (k : Kind) : (k.flag != FTW_D) = true := by
  cases k <;> decide

theorem forest_visits_bad (f : Forest) (parent : String) (key : List String) (level : Nat) :
    (Forest.visits false f parent key level).any
        (fun v => decide (v.level > 2) || v.type != FTW_D)
      = f.rejected level := by
  induction f generalizing parent key level with
  | nil => rfl
  | dir n kids rest ihk ihr =>
    simp only [Forest.visits, Bool.false_eq_true, if_false, List.cons_append, List.any_cons,
      List.any_append, ihk, ihr, Forest.rejected, bne_self_eq_false, Bool.or_false,
      Bool.or_assoc]
  | link n target rest ihk ihr =>
    simp only [Forest.visits, Bool.false_eq_true, if_false, List.cons_append, List.any_cons,
      List.any_append, ihk, ihr, Forest.rejected, bne_self_eq_false, Bool.or_false,
      Bool.or_assoc]
  | other n kind rest ih =>
    simp [Forest.visits, Forest.rejected, kind_flag_ne]

theorem tree_visits_bad (t : Tree) (path : String) :
    (Tree.visits false path t).any (fun v => decide (v.level > 2) || v.type != FTW_D)
      = t.rejected := by
  cases t with
  | absent => rfl
  | other k => simp [Tree.visits, Tree.rejected, kind_flag_ne]
  | dir kids =>
    simp only [Tree.visits, Bool.false_eq_true, if_false, List.any_cons, forest_visits_bad,
      Tree.rejected, bne_self_eq_false, Bool.or_false]
    simp

/-- The checking walk fails exactly when the path is absent or the walk meets
an entry that is too deep or not reported as a directory. -/
theorem nftw_check (t : Tree) (path : String) (s : World × Tree) :
    nftw t path walk_check 0 s
      = (s, if t = Tree.absent then -1 else if t.rejected then 1 else 0) := by
  have h0 : ((0 : Nat) &&& FTW_DEPTH != 0) = false := by decide
  cases t with
  | absent => rfl
  | other k =>
    simp only [nftw, walk_check_run]
    rw [h0, tree_visits_bad]
    simp
  | dir kids =>
    simp only [nftw, walk_check_run]
    rw [h0, tree_visits_bad]
    simp

/-- Without symbolic links the walk rejects exactly the trees with an entry
that is too deep or not a directory. -/
theorem forest_rejected_plain (f : Forest) (level : Nat) (h : f.hasLink = false) :
    f.rejected level = (f.hasDeep level || f.hasOther) := by
  induction f generalizing level with
  | nil => rfl
  | dir n kids rest ihk ihr =>
    simp only [Forest.hasLink, Bool.or_eq_false_iff] at h
    simp only [Forest.rejected, Forest.hasDeep, Forest.hasOther, ihk _ h.1, ihr _ h.2]
    cases decide (level > 2) <;> cases Forest.hasDeep kids (level + 1) <;>
      cases Forest.hasOther kids <;> cases Forest.hasDeep rest level <;>
      cases Forest.hasOther rest <;> rfl
  | link n target rest _ _ => simp [Forest.hasLink] at h
  | other n kind rest ih => simp [Forest.rejected, Forest.hasOther]

theorem cleanup_refuses (w : World) (t : Tree) (path : String) (h : t.rejected = true) :
    cleanup (w, t) path = ((w, t), -1) := by
  unfold cleanup
  rw [nftw_check]
  by_cases ht : t = Tree.absent
  · simp [ht]
  · simp [ht, h]

theorem tree_rejected_plain (t : Tree) (hl : t.hasLink = false)
    (h : t.hasDeep = true ∨ t.hasOther = true) : t.rejected = true := by
  cases t with
  | absent => simp [Tree.hasDeep, Tree.hasOther] at h
  | other k => rfl
  | dir kids =>
    simp only [Tree.rejected, forest_rejected_plain kids 1 hl]
    simpa [Tree.hasDeep, Tree.hasOther] using h

theorem rmdirCalls_map (ps : List String) : rmdirCalls (ps.map Event.rmdir) = ps := by
  induction ps with
  | nil => rfl
  | cons p ps ih => simp [rmdirCalls, ih]

/-- C1: `cleanup` on `linkedScaffold`, a tree in which the entry `x` is not
a directory but a symbolic link to one, does not refuse: it returns 0, calls
`rmdir` four times, removes the directory `s` behind the link and the
directory `bin`, and leaves the root with the link in it.  On trees without
such links `cleanup` is all-or-nothing: with an entry deeper than two levels
or an entry that is not a directory it returns `-1` and leaves world and tree
as they were. -/
theorem cleanup_follows_links :
    linkedScaffold.hasOther = true
      ∧ cleanup (plainHost, linkedScaffold) "/r"
          = (({ plainHost with
                  trace := [Event.rmdir "/r/x/s", Event.rmdir "/r/x", Event.warn "rmdir",
                    Event.rmdir "/r/bin", Event.rmdir "/r", Event.warn "rmdir"] },
              Tree.dir (Forest.link "x" Forest.nil Forest.nil)), 0)
      ∧ (∀ (w : World) (t : Tree) (path : String), t.hasLink = false →
          (t.hasDeep = true ∨ t.hasOther = true) → cleanup (w, t) path = ((w, t), -1)) :=
  ⟨by decide, by decide,
    fun w t path hl h => cleanup_refuses w t path (tree_rejected_plain t hl h)⟩

/-- C10: on `deepHost` a run of `main` for a user whose home is
`/home/staff/u` creates the home mount point three levels below the scaffold
root; the tree below the root then is `deepScaffold`, directories only; all
mounts are ejected, yet `cleanup` calls no `rmdir` and `main` warns that the
root is left untouched.  On `plainHost`, with home `/home/u`, the same program
removes its scaffold. -/
theorem scaffold_home_too_deep :
    Event.mkdir "/home/staff/u/.cache/dotbox/4242/home/staff/u" 511
        ∈ (main deepRun ["dotbox"] deepHost).2.trace
      ∧ treeAt (main deepRun ["dotbox"] deepHost).2 "/home/staff/u/.cache/dotbox/4242"
          = deepRun.atExit
      ∧ deepRun.atExit.hasOther = false
      ∧ deepRun.atExit.hasDeep = true
      ∧ umountTargets (main deepRun ["dotbox"] deepHost).2.trace
          = (mountTargets (main deepRun ["dotbox"] deepHost).2.trace).reverse
      ∧ rmdirCalls (main deepRun ["dotbox"] deepHost).2.trace = []
      ∧ Event.warn "cleanup: leaving /home/staff/u/.cache/dotbox/4242 untouched"
          ∈ (main deepRun ["dotbox"] deepHost).2.trace
      ∧ treeAt (main plainRun ["dotbox"] plainHost).2 "/home/u/.cache/dotbox/4242"
          = plainRun.atExit
      ∧ rmdirCalls (main plainRun ["dotbox"] plainHost).2.trace
          = ["/home/u/.cache/dotbox/4242/home/u", "/home/u/.cache/dotbox/4242/home",
             "/home/u/.cache/dotbox/4242/bin", "/home/u/.cache/dotbox/4242/dev/pts",
             "/home/u/.cache/dotbox/4242/dev", "/home/u/.cache/dotbox/4242/tmp",
             "/home/u/.cache/dotbox/4242"] := by
  decide

theorem teardown_reverses_setup_witness :
    (main plainRun ["dotbox", "/tmp/alt"] plainHost).1 = Final.returned 3
      ∧ ∃ l, (main plainRun ["dotbox", "/tmp/alt"] plainHost).2.trace = plainHost.trace ++ l
          ∧ umountTargets l = (mountTargets l).reverse :=
  ⟨by decide,
    (teardown_reverses_setup plainRun ["dotbox", "/tmp/alt"] plainHost 3 (by decide)).1⟩

theorem mount_bind_absent_source_witness :
    statOk plainHost "/lib64" = false
      ∧ mount_bind ⟨"/r", "/r/home/u"⟩ plainHost (entry "/lib64")
          = Result.ok (entry "/lib64") plainHost :=
  ⟨by decide,
    (mount_bind_absent_source ⟨"/r", "/r/home/u"⟩ plainHost (entry "/lib64")
      (fun s hs => by
        have h1 : s = "/lib64" := (Option.some.inj hs).symm
        rw [h1]
        decide)).1⟩

theorem mount_eject_once_witness :
    (mount_eject plainHost
        { source := some "/bin", type := some "", target := some "/r/bin", flags := 0,
          mounted := true }).2
      = { source := some "/bin", type := some "", target := some "/r/bin", flags := 0,
          mounted := false } :=
  (mount_eject_once plainHost plainHost
    { source := some "/bin", type := some "", target := some "/r/bin", flags := 0,
      mounted := true } rfl).2.1

theorem main_exit_status_witness :
    (main plainRun ["dotbox"] plainHost).1 = Final.returned 3
      ∧ ∀ code, (main plainRun ["dotbox"] plainHost).1 = Final.returned code →
          code = ((3 <<< 8) >>> 8) &&& 0xff :=
  ⟨by decide,
    (main_exit_status plainRun ["dotbox"] plainHost 1 0 4243 (3 <<< 8) rfl).2.2.2.1⟩

theorem mkdirp_prefixes_idempotent_witness :
    mkdirCalls (mkdirp plainHost (absPath ["r", "dev", "pts"])).trace
      = mkdirCalls plainHost.trace ++ pathPrefixes ["r", "dev", "pts"] :=
  (mkdirp_prefixes_idempotent plainHost ["r", "dev", "pts"] (by decide)).1

end Dotbox
